import Mathlib

/-!
Verification of the voxel-engine chunk generation and streaming core.

This file gives a shallow embedding, in Lean 4, of the deterministic
chunk-generation pipeline of the repository (the `/api/chunk` route:
`hash32`, `mix`, `toUnitFloat`, the Perlin noise factory `makeNoise`,
`generateChunkServer` with its four phases, and the cache key `keyOf`),
of the client-side fallback generation (`generateChunk`, `PaintLayer`),
and of the chunk stream manager of `WorldCanvas` (`loadChunkAt`,
`ensureChunksAround`), and proves or refutes the specified properties.

Modelling conventions:
* JavaScript 32-bit integer arithmetic (`>>> 0`, `Math.imul`, `& 255`)
  is modelled by `Nat`/`Int` arithmetic with explicit `% 2^32` / `% 256`.
* IEEE-754 doubles are modelled by `ℚ`; every arithmetic operation the
  noise pipeline performs (+, -, *, floor, comparisons) is exact on the
  rationals, and the claims under study are about exact values.
* `Uint8Array` voxel buffers are modelled as `List Nat` with the same
  flat indexing `x + y*S + z*S*S`; in-place writes become `List.set`.
* The asynchronous stream manager is modelled as a state machine; a
  `loadChunkAt` call is split at its suspension points into the
  synchronous prefix (`loadStart`) and the completion handlers
  (`completeSuccess` / `completeFailure`), each of which runs
  atomically, matching JavaScript's run-to-completion semantics.
-/

set_option maxRecDepth 1000000

/-- Modulus of JavaScript unsigned 32-bit arithmetic. -/
def U32 : Nat := 4294967296

/-- FNV-1a string hash of the route (`hash32`): fold over the UTF-16 code
units, xor then multiply by the FNV prime, all modulo 2^32. -/
def hash32 (s : String) : Nat :=
  s.data.foldl (fun h c => ((h ^^^ c.toNat) * 16777619) % U32) 2166136261

/-- MurmurHash3 32-bit finalizer applied to one input of `mix` (the body
of the `for` loop): the input is first wrapped to u32 (`n >>> 0`). -/
def fmix32 (n : Int) : Nat :=
  let x : Nat := (n % (U32 : Int)).toNat
  let x := x ^^^ (x >>> 16)
  let x := (x * 0x7feb352d) % U32
  let x := x ^^^ (x >>> 15)
  let x := (x * 0x846ca68b) % U32
  x ^^^ (x >>> 16)

/-- The route's `mix(...nums)`: xor-accumulate the finalized inputs onto
the FNV offset basis. -/
def mix (nums : List Int) : Nat :=
  nums.foldl (fun h n => h ^^^ fmix32 n) 0x811c9dc5

/-- The route's `toUnitFloat`: keep 27 low bits and divide by 2^27. -/
def toUnitFloat (u : Nat) : ℚ :=
  ((u &&& 0x7ffffff : Nat) : ℚ) / 0x8000000

/-- Swap two cells of the permutation table, reading both before writing
(the semantics of the destructuring swap in `makeNoise`).  The 512-entry
`Uint8Array` table is modelled as a read function `Nat → Nat`; a write
becomes an overlay, which has the same read semantics. -/
def swapCells (p : Nat → Nat) (i j : Nat) : Nat → Nat :=
  fun k => if k = i then p j else if k = j then p i else p k

/-- Initial content of the table array: `p[i] = i` for i < 256, the rest
still zero (a fresh `Uint8Array` is zero-filled). -/
def permInit : Nat → Nat := fun i => if i < 256 then i else 0

/-- Fisher-Yates shuffle of `makeNoise`, driven by the single scalar seed
(`j = Math.floor(seed*(i+1))`, the same seed at every step), for
`i = 255` down to `1`. -/
def shuffle (seed : ℚ) : Nat → Nat :=
  (List.range 255).foldl
    (fun p k =>
      let i := 255 - k
      let j := (⌊seed * (i + 1 : Nat)⌋).toNat
      swapCells p i j) permInit

/-- Permutation table of `makeNoise`: the shuffled 0..255 range duplicated
into indices 256..511 (`p[i + 256] = p[i]`). -/
def permTable (seed : ℚ) : Nat → Nat :=
  fun k => if k < 256 then shuffle seed k else shuffle seed (k - 256)

/-- Fade curve 6t^5 - 15t^4 + 10t^3 of `makeNoise`. -/
def fade (t : ℚ) : ℚ := t * t * t * (t * (t * 6 - 15) + 10)

/-- Linear interpolation of `makeNoise`. -/
def lerp (a b t : ℚ) : ℚ := a + t * (b - a)

/-- Gradient function of `makeNoise`: the low 4 bits of the hash pick one
of 16 gradient directions; returns the dot product with (x, y, z). -/
def grad (hsh : Nat) (x y z : ℚ) : ℚ :=
  let h := hsh % 16
  let u := if h < 8 then x else y
  let v := if h < 4 then y else if h = 12 ∨ h = 14 then x else z
  (if h % 2 = 0 then u else -u) + (if h / 2 % 2 = 0 then v else -v)

/-- The noise closure returned by `makeNoise(seed)`, evaluated at
(x, y, z); 2D use passes z = 0 (the default argument).  `& 255` on
`Math.floor` is `% 256` on integers (exactly, since 256 divides 2^32). -/
def makeNoise (seed : ℚ) (x y : ℚ) (z : ℚ := 0) : ℚ :=
  let p := permTable seed
  let X := ((⌊x⌋ % 256).toNat)
  let Y := ((⌊y⌋ % 256).toNat)
  let Z := ((⌊z⌋ % 256).toNat)
  let xf := x - ⌊x⌋
  let yf := y - ⌊y⌋
  let zf := z - ⌊z⌋
  let u := fade xf
  let v := fade yf
  let w := fade zf
  let A := p X + Y
  let AA := p A + Z
  let AB := p (A + 1) + Z
  let B := p (X + 1) + Y
  let BA := p B + Z
  let BB := p (B + 1) + Z
  lerp
    (lerp
      (lerp (grad (p AA) xf yf zf) (grad (p BA) (xf - 1) yf zf) u)
      (lerp (grad (p AB) xf (yf - 1) zf) (grad (p BB) (xf - 1) (yf - 1) zf) u)
      v)
    (lerp
      (lerp (grad (p (AA + 1)) xf yf (zf - 1)) (grad (p (BA + 1)) (xf - 1) yf (zf - 1)) u)
      (lerp (grad (p (AB + 1)) xf (yf - 1) (zf - 1)) (grad (p (BB + 1)) (xf - 1) (yf - 1) (zf - 1)) u)
      v)
    w * (1/2) + 1/2

/-- Block type codes of `block_types.ts` (the codes stored in voxel
buffers). -/
def Block.Air : Nat := 0

/-- Grass block code. -/
def Block.Grass : Nat := 1

/-- Dirt block code. -/
def Block.Dirt : Nat := 2

/-- Stone block code. -/
def Block.Stone : Nat := 3

/-- Generation parameters of the `/api/chunk` route (the `Params` type).
All JavaScript `number` fields that the route derives with `| 0` are
modelled as `Int`, `size` (clamped to `[4,128]`) as `Nat`, and the float
parameters as `ℚ`. -/
structure Params where
  size : Nat
  seed : String
  base : Int
  cx : Int
  cy : Int
  cz : Int
  surfaceScale : ℚ
  cavesScale : ℚ
  cavesThreshold : ℚ
  grassDepth : ℚ
  dirtDepth : ℚ
deriving DecidableEq

/-- JavaScript `| 0` truncation toward zero of a (rational) number. -/
def ratTrunc (q : ℚ) : Int := Int.tdiv q.num q.den

/-- Surface-noise seed of `generateChunkServer`:
`toUnitFloat(mix(baseHash, ox, oy, oz, 0xA1))` with `(ox,oy,oz)` the
voxel-space world origin `coordinate * size`. -/
def noiseSeed1 (p : Params) : ℚ :=
  toUnitFloat (mix [(hash32 p.seed : Int), p.cx * p.size, p.cy * p.size, p.cz * p.size, 0xA1])

/-- Cave-noise seed of `generateChunkServer`:
`toUnitFloat(mix(baseHash ^ 0x9e3779b9, ox, oy, oz, 0xB2))`. -/
def noiseSeed2 (p : Params) : ℚ :=
  toUnitFloat (mix [((hash32 p.seed ^^^ 0x9e3779b9 : Nat) : Int),
    p.cx * p.size, p.cy * p.size, p.cz * p.size, 0xB2])

/-- Flat 3D-to-1D indexing of voxel buffers: `x + y*S + z*S*S`. -/
def IDX (S x y z : Nat) : Nat := x + y * S + z * S * S

/-- Phase 1 of `generateChunkServer`: allocate the `S*S*S` grid and fill
it with the base block (`Uint8Array` stores `base` modulo 256). -/
def baseFill (p : Params) : List Nat :=
  List.replicate (p.size * p.size * p.size) ((p.base % 256).toNat)

/-- Phase 2 of `generateChunkServer` (surface heightmap): per column,
sample the surface noise at world coordinates, convert to a height
`maxY = Math.floor(h * S)` and clear every cell with `y > maxY` to Air
(scanning from `y = S-1` downward). -/
def surfaceCarve (p : Params) (grid : List Nat) : List Nat :=
  let S := p.size
  let ox : Int := p.cx * S
  let oz : Int := p.cz * S
  (List.range S).foldl (fun g (x : Nat) =>
    (List.range S).foldl (fun g (z : Nat) =>
      let h := makeNoise (noiseSeed1 p)
        (((x + ox : Int) : ℚ) * p.surfaceScale)
        (((z + oz : Int) : ℚ) * p.surfaceScale)
      let maxY : Int := ⌊h * (S : ℚ)⌋
      ((List.range S).reverse.filter (fun (y : Nat) => decide (maxY < (y : Int)))).foldl
        (fun g y => g.set (IDX S x y z) Block.Air) g) g) grid

/-- Phase 3 of `generateChunkServer` (volumetric caves): per voxel,
sample the cave noise at world coordinates and set the voxel to Air when
the sample strictly exceeds `cavesThreshold`. -/
def caveCarve (p : Params) (grid : List Nat) : List Nat :=
  let S := p.size
  let ox : Int := p.cx * S
  let oy : Int := p.cy * S
  let oz : Int := p.cz * S
  (List.range S).foldl (fun g (x : Nat) =>
    (List.range S).foldl (fun g (y : Nat) =>
      (List.range S).foldl (fun g (z : Nat) =>
        let n := makeNoise (noiseSeed2 p)
          (((x + ox : Int) : ℚ) * p.cavesScale)
          (((y + oy : Int) : ℚ) * p.cavesScale)
          (((z + oz : Int) : ℚ) * p.cavesScale)
        if p.cavesThreshold < n then g.set (IDX S x y z) Block.Air else g) g) g) grid

/-- The `while (y >= 0 && grid[IDX(x,y,z)] === Block.Air) y--;` scan that
finds the topmost solid cell of a column.  `fuel` is `y + 1`, so the
result is the topmost solid `y` plus one, and `0` means the column is
entirely Air. -/
def findTop (g : List Nat) (S x z : Nat) : Nat → Nat
  | 0 => 0
  | fuel + 1 =>
    if g.getD (IDX S x fuel z) 0 = Block.Air then findTop g S x z fuel else fuel + 1

/-- Replacement loop of the route's `replaceTopContiguous`: starting at
the top solid cell, replace up to `depth` contiguous cells equal to
`fromB` by `toB & 0xff`, stopping at Air or at any other block.  `fuel`
is `y + 1` again. -/
def contigLoop (S x z : Nat) (fromB toB : Int) (depth : Nat) :
    List Nat → Nat → Nat → List Nat
  | g, 0, _ => g
  | g, fuel + 1, replaced =>
    if replaced < depth then
      let b := g.getD (IDX S x fuel z) 0
      if b = Block.Air then g
      else if (b : Int) ≠ fromB then g
      else contigLoop S x z fromB toB depth
        (g.set (IDX S x fuel z) ((toB % 256).toNat)) fuel (replaced + 1)
    else g

/-- Iteration pattern shared by every painting pass of the repository:
`for (x = 0; x < S; x++) for (z = 0; z < S; z++)` apply a per-column
operation to the grid. -/
def foldColumns (S : Nat) (F : Nat → Nat → List Nat → List Nat) (grid : List Nat) :
    List Nat :=
  (List.range S).foldl (fun g x => (List.range S).foldl (fun g z => F x z g) g) grid

/-- Column body of the route's `replaceTopContiguous`: find the top solid
cell, then run the contiguous replacement loop. -/
def contigCol (S : Nat) (fromB toB : Int) (depth : Nat) (x z : Nat) (g : List Nat) :
    List Nat :=
  contigLoop S x z fromB toB depth g (findTop g S x z S) 0

/-- The route's `replaceTopContiguous(from, to, depth)`. -/
def replaceTopContiguous (S : Nat) (fromB toB : Int) (depth : Nat) (grid : List Nat) :
    List Nat :=
  foldColumns S (contigCol S fromB toB depth) grid

/-- Replacement loop of the route's `replaceTopAny`: scan downward from
the top solid cell; replace a cell when it is solid and matches `fromB`
(`none` matches any solid cell), counting only replacements against
`depth`, and always advance downward. -/
def anyLoop (S x z : Nat) (fromB : Option Int) (toB : Int) (depth : Nat) :
    List Nat → Nat → Nat → List Nat
  | g, 0, _ => g
  | g, fuel + 1, replaced =>
    if replaced < depth then
      let b := g.getD (IDX S x fuel z) 0
      if b ≠ Block.Air ∧ (fromB = none ∨ fromB = some (b : Int)) then
        anyLoop S x z fromB toB depth
          (g.set (IDX S x fuel z) ((toB % 256).toNat)) fuel (replaced + 1)
      else anyLoop S x z fromB toB depth g fuel replaced
    else g

/-- Column body of the route's `replaceTopAny`: find the top solid cell,
then run the skip-but-continue replacement loop. -/
def anyCol (S : Nat) (fromB : Option Int) (toB : Int) (depth : Nat) (x z : Nat)
    (g : List Nat) : List Nat :=
  anyLoop S x z fromB toB depth g (findTop g S x z S) 0

/-- The route's `replaceTopAny(from, to, depth)`. -/
def replaceTopAny (S : Nat) (fromB : Option Int) (toB : Int) (depth : Nat)
    (grid : List Nat) : List Nat :=
  foldColumns S (anyCol S fromB toB depth) grid

/-- The route's `generateChunkServer`: base fill, surface carving, cave
carving, then grass (contiguous, guarded by `grassDepth > 0`) and dirt
(any-mode, guarded by `dirtDepth > 0`) painting, with the depths
truncated by `| 0`. -/
def generateChunkServer (p : Params) : List Nat :=
  let g1 := surfaceCarve p (baseFill p)
  let g2 := caveCarve p g1
  let g3 := if 0 < p.grassDepth then
      replaceTopContiguous p.size p.base (Block.Grass : Int) (ratTrunc p.grassDepth).toNat g2
    else g2
  if 0 < p.dirtDepth then
    replaceTopAny p.size (some p.base) (Block.Dirt : Int) (ratTrunc p.dirtDepth).toNat g3
  else g3

/-- Decimal digit characters of a natural number, most significant first
(the digits both JavaScript and this model print for naturals). -/
def natChars (n : Nat) : List Char :=
  ((Nat.digits 10 n).map (fun d => Char.ofNat (48 + d))).reverse

/-- Decimal rendering of a natural number, as `String(n)` produces in
JavaScript for a nonnegative integer. -/
def natStr (n : Nat) : String :=
  if n = 0 then "0" else String.mk (natChars n)

/-- Decimal rendering of an integer, as JavaScript template interpolation
produces for an integral number value. -/
def intStr (z : Int) : String :=
  if z < 0 then "-" ++ natStr z.natAbs else natStr z.natAbs

/-- Rendering of a rational parameter value.  JavaScript renders a float
with its shortest round-tripping decimal, which is injective on number
values; the model renders the reduced numerator and denominator, which is
likewise injective on `ℚ` — the property `keyOf` relies on. -/
def ratStr (q : ℚ) : String := intStr q.num ++ "/" ++ natStr q.den

/-- The route's cache key `keyOf`: every generation parameter, rendered
and pipe-delimited in a fixed order. -/
def keyOf (p : Params) : String :=
  natStr p.size ++ "|" ++ p.seed ++ "|" ++ intStr p.base ++ "|" ++ intStr p.cx ++ "|" ++
    intStr p.cy ++ "|" ++ intStr p.cz ++ "|" ++ ratStr p.surfaceScale ++ "|" ++
    ratStr p.cavesScale ++ "|" ++ ratStr p.cavesThreshold ++ "|" ++
    ratStr p.grassDepth ++ "|" ++ ratStr p.dirtDepth

/-- Chunk edge length of the client world configuration
(`WorldConfiguraton.CHUNK`). -/
def CHUNK : Nat := 16

/-- Base block of the client world configuration (`WORLD_BASE_BLOCK`,
stone). -/
def BASE_BLOCK : Nat := Block.Stone

/-- Client view radius in chunks (`VIEW_RADIUS`). -/
def VIEW_RADIUS : Int := 6

/-- The client's `generateChunk(CHUNK, fill)` of `chunk.ts`: a
`CHUNK³` buffer filled with one block. -/
def generateChunk (chunkSize fill : Nat) : List Nat :=
  List.replicate (chunkSize * chunkSize * chunkSize) (fill % 256)

/-- Paint mode of the client's `PaintLayer`. -/
inductive PaintMode
  | contiguous
  | any
deriving DecidableEq

/-- Memory layout of the client's `PaintLayer`. -/
inductive GridLayout
  | xzy
  | xyz
deriving DecidableEq

/-- The two indexers of `PaintLayer` (`idx_xzy` / `idx_xyz`). -/
def layoutIDX : GridLayout → Nat → Nat → Nat → Nat → Nat
  | .xzy, size, x, y, z => x + z * size + y * size * size
  | .xyz, size, x, y, z => x + y * size + z * size * size

/-- Top-of-column scan of the client's `PaintLayer` (its `isEmpty` is
`v = 0` on byte buffers); `fuel` is `y + 1`, result `0` means the column
is empty. -/
def clientFindTop (g : List Nat) (L : GridLayout) (size x z : Nat) : Nat → Nat
  | 0 => 0
  | fuel + 1 =>
    if g.getD (layoutIDX L size x fuel z) 0 = 0 then clientFindTop g L size x z fuel
    else fuel + 1

/-- Replacement loop of the client's `PaintLayer`: in `contiguous` mode a
mismatch stops the column; in `any` mode it is skipped and the scan
continues.  The budget `depth` is a float (`Math.random()*4+1` at one
call site), compared against the integer `replaced` counter. -/
def paintLoop (L : GridLayout) (size x z : Nat) (fromB : Option Nat) (toB : Nat)
    (depth : ℚ) (mode : PaintMode) : List Nat → Nat → Nat → List Nat
  | g, 0, _ => g
  | g, fuel + 1, replaced =>
    if (replaced : ℚ) < depth then
      let b := g.getD (layoutIDX L size x fuel z) 0
      if b = 0 then g
      else if mode = PaintMode.contiguous then
        if fromB = none ∨ fromB = some b then
          paintLoop L size x z fromB toB depth mode
            (g.set (layoutIDX L size x fuel z) toB) fuel (replaced + 1)
        else g
      else
        if fromB = none ∨ fromB = some b then
          paintLoop L size x z fromB toB depth mode
            (g.set (layoutIDX L size x fuel z) toB) fuel (replaced + 1)
        else paintLoop L size x z fromB toB depth mode g fuel replaced
    else g

/-- Column body of the client's `PaintLayer`. -/
def paintCol (L : GridLayout) (size : Nat) (fromB : Option Nat) (toB : Nat)
    (depth : ℚ) (mode : PaintMode) (x z : Nat) (g : List Nat) : List Nat :=
  paintLoop L size x z fromB toB depth mode g (clientFindTop g L size x z size) 0

/-- The client's `PaintLayer(voxels, size, from, to, depth, layout, mode)`
of `surface_details.ts`. -/
def PaintLayer (voxels : List Nat) (size : Nat) (fromB : Option Nat) (toB : Nat)
    (depth : ℚ) (L : GridLayout) (mode : PaintMode) : List Nat :=
  foldColumns size (paintCol L size fromB toB depth mode) voxels

/-- The fallback chunk built in the `catch` branch of `loadChunkAt`:
local `generateChunk`, grass painted 2 deep (contiguous), dirt painted
`Math.random()*4 + 1` deep (any-mode); the carving phases are commented
out in the source.  The `Math.random()` draw is the explicit parameter
`r`, which ranges over `[0, 1)`. -/
def fallbackChunk (r : ℚ) : List Nat :=
  let lcl := generateChunk CHUNK BASE_BLOCK
  let g1 := PaintLayer lcl CHUNK (some BASE_BLOCK) Block.Grass 2 .xyz .contiguous
  PaintLayer g1 CHUNK (some BASE_BLOCK) Block.Dirt (r * 4 + 1) .xyz .any

/-- State of the `WorldCanvas` chunk stream manager: the `loaded` map's
keys, the `inflight` set, the `disposed` flag, and the list of chunks
whose resources were released by `disposeObject` during eviction.  A map
key `"cx,cz"` is modelled as the integer pair (the string key is
injective on integer pairs). -/
structure StreamState where
  loaded : List (Int × Int)
  inflight : List (Int × Int)
  disposed : Bool
  released : List (Int × Int)
deriving DecidableEq

/-- Synchronous prefix of `loadChunkAt` (everything before the first
`await`): bail out when the key is loaded, inflight, or the manager is
disposed; otherwise mark the key inflight and issue the fetch.  The
returned flag records whether a request was issued. -/
def loadStart (st : StreamState) (k : Int × Int) : StreamState × Bool :=
  if k ∈ st.loaded ∨ k ∈ st.inflight ∨ st.disposed = true then (st, false)
  else ({ st with inflight := k :: st.inflight }, true)

/-- Completion of a successful fetch of `loadChunkAt`, with `disposed`
read at completion time: when disposed, return before touching `loaded`
(the `finally` still clears the inflight marker); otherwise record the
chunk resident and clear the inflight marker. -/
def completeSuccess (st : StreamState) (k : Int × Int) : StreamState :=
  if st.disposed = true then { st with inflight := st.inflight.erase k }
  else { st with loaded := st.loaded.insert k, inflight := st.inflight.erase k }

/-- Completion of a failed fetch of `loadChunkAt` (the `catch` branch):
generate the fallback chunk locally and, unless disposed, record it
resident; the `finally` clears the inflight marker in every case. -/
def completeFailure (st : StreamState) (k : Int × Int) : StreamState :=
  if st.disposed = true then { st with inflight := st.inflight.erase k }
  else { st with loaded := st.loaded.insert k, inflight := st.inflight.erase k }

/-- Consecutive integers from `lo` to `hi` inclusive. -/
def intRange (lo hi : Int) : List Int :=
  (List.range (hi + 1 - lo).toNat).map (fun (k : Nat) => lo + (k : Int))

/-- The coordinates visited by the load loops of `ensureChunksAround`:
`dz` from `-VIEW_RADIUS` to `VIEW_RADIUS` (outer), `dx` likewise
(inner), visiting `(cx + dx, cz + dz)`. -/
def squareCoords (cx cz : Int) : List (Int × Int) :=
  (intRange (-VIEW_RADIUS) VIEW_RADIUS).flatMap (fun dz =>
    (intRange (-VIEW_RADIUS) VIEW_RADIUS).map (fun dx => (cx + dx, cz + dz)))

/-- The load loop of `ensureChunksAround`: run the synchronous prefix of
`loadChunkAt` for every coordinate in order, collecting the coordinates
for which a request was actually issued. -/
def loadStartMany (st : StreamState) (ks : List (Int × Int)) :
    StreamState × List (Int × Int) :=
  ks.foldl (fun acc k =>
    let r := loadStart acc.1 k
    (r.1, if r.2 then acc.2 ++ [k] else acc.2)) (st, [])

/-- The eviction condition of `ensureChunksAround`:
`Math.abs(gx - cx) > VIEW_RADIUS + 1 || Math.abs(gz - cz) > VIEW_RADIUS + 1`. -/
def evictCond (cx cz : Int) (g : Int × Int) : Bool :=
  decide (VIEW_RADIUS + 1 < |g.1 - cx| ∨ VIEW_RADIUS + 1 < |g.2 - cz|)

/-- The client's `ensureChunksAround(cx, cz)`: start a load for every
coordinate in the view square, then evict (and release the resources of)
every resident chunk whose distance exceeds `VIEW_RADIUS + 1`.  Returns
the new state and the list of issued requests. -/
def ensureChunksAround (st : StreamState) (cx cz : Int) :
    StreamState × List (Int × Int) :=
  let r1 := loadStartMany st (squareCoords cx cz)
  let st1 := r1.1
  let evicted := st1.loaded.filter (evictCond cx cz)
  ({ st1 with
      loaded := st1.loaded.filter (fun g => ! evictCond cx cz g),
      released := st1.released ++ evicted }, r1.2)

/-- Chebyshev distance between chunk coordinates. -/
def chebDist (a b : Int × Int) : Int := max |a.1 - b.1| |a.2 - b.2|

/-- Membership of a flat index in the column `(x, z)` of an `S`-sized
grid. -/
def inCol (S x z i : Nat) : Prop := ∃ y, y < S ∧ i = IDX S x y z

/-- The `(x, z)` pairs visited by `foldColumns`, in visit order. -/
def colPairs (S : Nat) : List (Nat × Nat) :=
  (List.range S).flatMap (fun x => (List.range S).map (fun z => (x, z)))

/-- Concrete generation parameters used to test the cave phase at
`cavesThreshold = 1`: chunk (100,100,100) of size 4 with the world seed
string of the client and cave scale 37/10000, so that voxel (0,0,0)
samples the cave noise at the point (1.48, 1.48, 1.48). -/
def caveP : Params :=
  { size := 4, seed := "1", base := 3, cx := 100, cy := 100, cz := 100,
    surfaceScale := 1, cavesScale := 37/10000, cavesThreshold := 1,
    grassDepth := 2, dirtDepth := 3 }

/-- A parameter record with `cavesThreshold = 3/2`, used to witness the
amended cave-independence bound. -/
def thrP : Params :=
  { size := 1, seed := "1", base := 3, cx := 0, cy := 0, cz := 0,
    surfaceScale := 1, cavesScale := 37/10000, cavesThreshold := 3/2,
    grassDepth := 2, dirtDepth := 3 }

/-- Two parameter records differ in exactly one field: one field's
values disagree while every other field agrees. -/
def DiffersInOneField (p q : Params) : Prop :=
  (p.size ≠ q.size ∧ p.seed = q.seed ∧ p.base = q.base ∧ p.cx = q.cx ∧ p.cy = q.cy ∧ p.cz = q.cz ∧ p.surfaceScale = q.surfaceScale ∧ p.cavesScale = q.cavesScale ∧ p.cavesThreshold = q.cavesThreshold ∧ p.grassDepth = q.grassDepth ∧ p.dirtDepth = q.dirtDepth) ∨
  (p.size = q.size ∧ p.seed ≠ q.seed ∧ p.base = q.base ∧ p.cx = q.cx ∧ p.cy = q.cy ∧ p.cz = q.cz ∧ p.surfaceScale = q.surfaceScale ∧ p.cavesScale = q.cavesScale ∧ p.cavesThreshold = q.cavesThreshold ∧ p.grassDepth = q.grassDepth ∧ p.dirtDepth = q.dirtDepth) ∨
  (p.size = q.size ∧ p.seed = q.seed ∧ p.base ≠ q.base ∧ p.cx = q.cx ∧ p.cy = q.cy ∧ p.cz = q.cz ∧ p.surfaceScale = q.surfaceScale ∧ p.cavesScale = q.cavesScale ∧ p.cavesThreshold = q.cavesThreshold ∧ p.grassDepth = q.grassDepth ∧ p.dirtDepth = q.dirtDepth) ∨
  (p.size = q.size ∧ p.seed = q.seed ∧ p.base = q.base ∧ p.cx ≠ q.cx ∧ p.cy = q.cy ∧ p.cz = q.cz ∧ p.surfaceScale = q.surfaceScale ∧ p.cavesScale = q.cavesScale ∧ p.cavesThreshold = q.cavesThreshold ∧ p.grassDepth = q.grassDepth ∧ p.dirtDepth = q.dirtDepth) ∨
  (p.size = q.size ∧ p.seed = q.seed ∧ p.base = q.base ∧ p.cx = q.cx ∧ p.cy ≠ q.cy ∧ p.cz = q.cz ∧ p.surfaceScale = q.surfaceScale ∧ p.cavesScale = q.cavesScale ∧ p.cavesThreshold = q.cavesThreshold ∧ p.grassDepth = q.grassDepth ∧ p.dirtDepth = q.dirtDepth) ∨
  (p.size = q.size ∧ p.seed = q.seed ∧ p.base = q.base ∧ p.cx = q.cx ∧ p.cy = q.cy ∧ p.cz ≠ q.cz ∧ p.surfaceScale = q.surfaceScale ∧ p.cavesScale = q.cavesScale ∧ p.cavesThreshold = q.cavesThreshold ∧ p.grassDepth = q.grassDepth ∧ p.dirtDepth = q.dirtDepth) ∨
  (p.size = q.size ∧ p.seed = q.seed ∧ p.base = q.base ∧ p.cx = q.cx ∧ p.cy = q.cy ∧ p.cz = q.cz ∧ p.surfaceScale ≠ q.surfaceScale ∧ p.cavesScale = q.cavesScale ∧ p.cavesThreshold = q.cavesThreshold ∧ p.grassDepth = q.grassDepth ∧ p.dirtDepth = q.dirtDepth) ∨
  (p.size = q.size ∧ p.seed = q.seed ∧ p.base = q.base ∧ p.cx = q.cx ∧ p.cy = q.cy ∧ p.cz = q.cz ∧ p.surfaceScale = q.surfaceScale ∧ p.cavesScale ≠ q.cavesScale ∧ p.cavesThreshold = q.cavesThreshold ∧ p.grassDepth = q.grassDepth ∧ p.dirtDepth = q.dirtDepth) ∨
  (p.size = q.size ∧ p.seed = q.seed ∧ p.base = q.base ∧ p.cx = q.cx ∧ p.cy = q.cy ∧ p.cz = q.cz ∧ p.surfaceScale = q.surfaceScale ∧ p.cavesScale = q.cavesScale ∧ p.cavesThreshold ≠ q.cavesThreshold ∧ p.grassDepth = q.grassDepth ∧ p.dirtDepth = q.dirtDepth) ∨
  (p.size = q.size ∧ p.seed = q.seed ∧ p.base = q.base ∧ p.cx = q.cx ∧ p.cy = q.cy ∧ p.cz = q.cz ∧ p.surfaceScale = q.surfaceScale ∧ p.cavesScale = q.cavesScale ∧ p.cavesThreshold = q.cavesThreshold ∧ p.grassDepth ≠ q.grassDepth ∧ p.dirtDepth = q.dirtDepth) ∨
  (p.size = q.size ∧ p.seed = q.seed ∧ p.base = q.base ∧ p.cx = q.cx ∧ p.cy = q.cy ∧ p.cz = q.cz ∧ p.surfaceScale = q.surfaceScale ∧ p.cavesScale = q.cavesScale ∧ p.cavesThreshold = q.cavesThreshold ∧ p.grassDepth = q.grassDepth ∧ p.dirtDepth ≠ q.dirtDepth)

/-- A parameter record identical to `caveP` except for its seed string,
which contains the pipe delimiter itself. -/
def caveP3 : Params := { caveP with seed := "1|2" }

/-- An empty streaming state: nothing loaded, nothing inflight, not
disposed, nothing released. -/
def st0 : StreamState := { loaded := [], inflight := [], disposed := false, released := [] }

/-- A streaming state holding two resident chunks on the x-axis, used to
witness the eviction hysteresis at distances 7 and 8 from the origin. -/
def stW : StreamState :=
  { loaded := [(7, 0), (8, 0)], inflight := [], disposed := false, released := [] }

/-- A disposed streaming state with one inflight request. -/
def stD : StreamState :=
  { loaded := [], inflight := [(5, 5)], disposed := true, released := [] }

/-! Helper lemmas about list reads and writes and the flat indexing. -/

/-- Writing at one index leaves reads at any other index unchanged. -/
theorem getD_set_ne (l : List Nat) (i j v d : Nat) (h : i ≠ j) :
    (l.set i v).getD j d = l.getD j d := by
  induction l generalizing i j with
  | nil => rfl
  | cons a l ih =>
    cases i with
    | zero =>
      cases j with
      | zero => exact absurd rfl h
      | succ j => rfl
    | succ i =>
      cases j with
      | zero => rfl
      | succ j => simpa using ih i j (by omega)

/-- Writing inside the list is visible at the written index. -/
theorem getD_set_self (l : List Nat) (i v d : Nat) (h : i < l.length) :
    (l.set i v).getD i d = v := by
  induction l generalizing i with
  | nil => simp at h
  | cons a l ih =>
    cases i with
    | zero => rfl
    | succ i => simpa using ih i (by simpa using h)

/-- Reads from a constant-filled buffer. -/
theorem getD_replicate (n a i d : Nat) (h : i < n) :
    (List.replicate n a).getD i d = a := by
  induction n generalizing i with
  | zero => omega
  | succ n ih =>
    cases i with
    | zero => rfl
    | succ i =>
      rw [List.replicate_succ]
      simpa using ih i (by omega)

/-- The flat index of an in-bounds voxel is inside the buffer. -/
theorem IDX_lt (S x y z : Nat) (hx : x < S) (hy : y < S) (hz : z < S) :
    IDX S x y z < S * S * S := by
  unfold IDX
  nlinarith

/-- Base-`S` digit recovery: the flat index determines the coordinates. -/
theorem IDX_inj (S x y z x' y' z' : Nat) (hx : x < S) (hy : y < S) (hz : z < S)
    (hx' : x' < S) (hy' : y' < S) (hz' : z' < S)
    (h : IDX S x y z = IDX S x' y' z') : x = x' ∧ y = y' ∧ z = z' := by
  have hS : 0 < S := by omega
  have key : ∀ a b c : Nat, a < S → b < S → c < S →
      (IDX S a b c) % S = a ∧ (IDX S a b c) / S = b + c * S := by
    intro a b c ha hb hc
    unfold IDX
    constructor
    · have : a + b * S + c * (S * S) = a + (b + c * S) * S := by ring
      rw [show a + b * S + c * S * S = a + (b + c * S) * S by ring,
        Nat.add_mul_mod_self_right, Nat.mod_eq_of_lt ha]
    · rw [show a + b * S + c * S * S = a + (b + c * S) * S by ring,
        Nat.add_mul_div_right _ _ hS, Nat.div_eq_of_lt ha, Nat.zero_add]
  obtain ⟨hm, hd⟩ := key x y z hx hy hz
  obtain ⟨hm', hd'⟩ := key x' y' z' hx' hy' hz'
  have hxx : x = x' := by rw [← hm, ← hm', h]
  have hyz : y + z * S = y' + z' * S := by rw [← hd, ← hd', h]
  have hyy : y = y' := by
    have h1 : (y + z * S) % S = y := by
      rw [Nat.add_mul_mod_self_right, Nat.mod_eq_of_lt hy]
    have h2 : (y' + z' * S) % S = y' := by
      rw [Nat.add_mul_mod_self_right, Nat.mod_eq_of_lt hy']
    rw [← h1, ← h2, hyz]
  refine ⟨hxx, hyy, ?_⟩
  have hzz : z * S = z' * S := by omega
  exact Nat.eq_of_mul_eq_mul_right hS hzz

/-- An index of one column is never an index of a different column. -/
theorem not_inCol_of_ne (S x z x₀ z₀ y₀ : Nat) (hx : x < S) (hz : z < S)
    (hx₀ : x₀ < S) (hz₀ : z₀ < S) (hy₀ : y₀ < S)
    (hne : ¬(x = x₀ ∧ z = z₀)) : ¬ inCol S x z (IDX S x₀ y₀ z₀) := by
  rintro ⟨y, hy, hEq⟩
  obtain ⟨h1, h2, h3⟩ := IDX_inj S x y z x₀ y₀ z₀ hx hy hz hx₀ hy₀ hz₀ hEq.symm
  exact hne ⟨h1, h3⟩

/-! Machinery for reasoning about the column-by-column passes. -/

/-- Folding over a concatenation of blocks is folding blockwise. -/
theorem foldl_flatMap_eq {α β γ : Type} (f : α → List β) (step : γ → β → γ)
    (l : List α) (init : γ) :
    (l.flatMap f).foldl step init =
      l.foldl (fun acc a => (f a).foldl step acc) init := by
  induction l generalizing init with
  | nil => rfl
  | cons a l ih => simp [List.flatMap_cons, List.foldl_append, ih]

/-- The nested column loops are one fold over the pair list. -/
theorem foldColumns_eq (S : Nat) (F : Nat → Nat → List Nat → List Nat) (g : List Nat) :
    foldColumns S F g = (colPairs S).foldl (fun g xz => F xz.1 xz.2 g) g := by
  unfold foldColumns colPairs
  rw [foldl_flatMap_eq]
  simp [List.foldl_map]

/-- Membership in the pair list is coordinate boundedness. -/
theorem mem_colPairs (S : Nat) (p : Nat × Nat) :
    p ∈ colPairs S ↔ p.1 < S ∧ p.2 < S := by
  cases p with
  | mk x z => simp [colPairs, List.mem_flatMap, List.mem_map, List.mem_range]

/-- Tagging each element of a duplicate-free list with pairwise distinct
first components gives a duplicate-free pair list. -/
theorem nodup_tagged_pairs (l₁ l₂ : List Nat) (h₁ : l₁.Nodup) (h₂ : l₂.Nodup) :
    (l₁.flatMap (fun x => l₂.map (fun z => (x, z)))).Nodup := by
  induction l₁ with
  | nil => simp
  | cons a l ih =>
    rw [List.flatMap_cons]
    rw [List.nodup_cons] at h₁
    refine List.Nodup.append ?_ (ih h₁.2) ?_
    · exact h₂.map (fun z z' hzz => ((Prod.mk.injEq _ _ _ _).mp hzz).2)
    · intro p hp1 hp2
      obtain ⟨z, hz, rfl⟩ := List.mem_map.mp hp1
      obtain ⟨x', hx', hmem⟩ := List.mem_flatMap.mp hp2
      obtain ⟨z', hz', hEq⟩ := List.mem_map.mp hmem
      have hax : a = x' := ((Prod.mk.injEq _ _ _ _).mp hEq).1.symm
      exact h₁.1 (hax ▸ hx')

/-- Each column pair is visited exactly once. -/
theorem colPairs_nodup (S : Nat) : (colPairs S).Nodup :=
  nodup_tagged_pairs _ _ (List.nodup_range S) (List.nodup_range S)

/-- Folding column operations that avoid the column `(x₀, z₀)` neither
changes that column nor the buffer length. -/
theorem foldl_cols_preserve
    (S : Nat) (F : Nat → Nat → List Nat → List Nat)
    (Hlocal : ∀ x z g i, x < S → z < S → ¬ inCol S x z i →
      (F x z g).getD i 0 = g.getD i 0)
    (Hlen : ∀ x z g, x < S → z < S → (F x z g).length = g.length)
    (x₀ z₀ : Nat) (hx₀ : x₀ < S) (hz₀ : z₀ < S) :
    ∀ (L : List (Nat × Nat)) (g : List Nat),
      (∀ p ∈ L, p.1 < S ∧ p.2 < S) → (x₀, z₀) ∉ L →
      (L.foldl (fun g xz => F xz.1 xz.2 g) g).length = g.length ∧
      (∀ y, y < S →
        (L.foldl (fun g xz => F xz.1 xz.2 g) g).getD (IDX S x₀ y z₀) 0 =
          g.getD (IDX S x₀ y z₀) 0) := by
  intro L
  induction L with
  | nil => intro g _ _; exact ⟨rfl, fun y _ => rfl⟩
  | cons p L ih =>
    intro g hb hne
    have hp : p.1 < S ∧ p.2 < S := hb p (List.mem_cons_self p L)
    have hpne : ¬(p.1 = x₀ ∧ p.2 = z₀) := by
      rintro ⟨h1, h2⟩
      exact hne (by
        have : p = (x₀, z₀) := Prod.ext h1 h2
        simp [this])
    have hL : ∀ q ∈ L, q.1 < S ∧ q.2 < S := fun q hq => hb q (List.mem_cons_of_mem p hq)
    have hneL : (x₀, z₀) ∉ L := fun hmem => hne (List.mem_cons_of_mem p hmem)
    obtain ⟨ihl, ihc⟩ := ih (F p.1 p.2 g) hL hneL
    constructor
    · simpa [ihl] using Hlen p.1 p.2 g hp.1 hp.2
    · intro y hy
      have hni : ¬ inCol S p.1 p.2 (IDX S x₀ y z₀) :=
        not_inCol_of_ne S p.1 p.2 x₀ z₀ y hp.1 hp.2 hx₀ hz₀ hy hpne
      calc (L.foldl (fun g xz => F xz.1 xz.2 g) (F p.1 p.2 g)).getD (IDX S x₀ y z₀) 0
          = (F p.1 p.2 g).getD (IDX S x₀ y z₀) 0 := ihc y hy
        _ = g.getD (IDX S x₀ y z₀) 0 := Hlocal p.1 p.2 g _ hp.1 hp.2 hni

/-- Main column lemma: when every column operation writes only inside
its own column and preserves the length, and the operation on column
`(x₀, z₀)` turns a column reading `col` into a column reading `col'`,
then a full pass turns the `(x₀, z₀)` column from `col` into `col'`. -/
theorem foldColumns_column
    (S : Nat) (F : Nat → Nat → List Nat → List Nat)
    (Hlocal : ∀ x z g i, x < S → z < S → ¬ inCol S x z i →
      (F x z g).getD i 0 = g.getD i 0)
    (Hlen : ∀ x z g, x < S → z < S → (F x z g).length = g.length)
    (x₀ z₀ : Nat) (hx₀ : x₀ < S) (hz₀ : z₀ < S)
    (col col' : Nat → Nat)
    (Hcol : ∀ g : List Nat, g.length = S * S * S →
      (∀ y, y < S → g.getD (IDX S x₀ y z₀) 0 = col y) →
      (∀ y, y < S → (F x₀ z₀ g).getD (IDX S x₀ y z₀) 0 = col' y))
    (g : List Nat) (hlen : g.length = S * S * S)
    (hcol : ∀ y, y < S → g.getD (IDX S x₀ y z₀) 0 = col y) :
    (foldColumns S F g).length = S * S * S ∧
    (∀ y, y < S → (foldColumns S F g).getD (IDX S x₀ y z₀) 0 = col' y) := by
  rw [foldColumns_eq]
  have hmem : (x₀, z₀) ∈ colPairs S := (mem_colPairs S (x₀, z₀)).mpr ⟨hx₀, hz₀⟩
  obtain ⟨s, t, hst⟩ := List.append_of_mem hmem
  have hnd := colPairs_nodup S
  rw [hst] at hnd
  have hnds := List.nodup_append.mp hnd
  have hnotS : (x₀, z₀) ∉ s := by
    intro hmemS
    exact (hnds.2.2 hmemS) (List.mem_cons_self _ _)
  have hnotT : (x₀, z₀) ∉ t := (List.nodup_cons.mp hnds.2.1).1
  have hballS : ∀ p ∈ s, p.1 < S ∧ p.2 < S := by
    intro p hp
    exact (mem_colPairs S p).mp (hst ▸ List.mem_append.mpr (Or.inl hp))
  have hballT : ∀ p ∈ t, p.1 < S ∧ p.2 < S := by
    intro p hp
    refine (mem_colPairs S p).mp (hst ▸ List.mem_append.mpr (Or.inr ?_))
    exact List.mem_cons_of_mem _ hp
  rw [hst, List.foldl_append]
  obtain ⟨hL1len, hL1col⟩ :=
    foldl_cols_preserve S F Hlocal Hlen x₀ z₀ hx₀ hz₀ s g hballS hnotS
  set g₁ := s.foldl (fun g xz => F xz.1 xz.2 g) g with hg₁
  have hg₁len : g₁.length = S * S * S := by rw [hL1len, hlen]
  have hg₁col : ∀ y, y < S → g₁.getD (IDX S x₀ y z₀) 0 = col y := by
    intro y hy
    rw [hL1col y hy]
    exact hcol y hy
  have hg₂col := Hcol g₁ hg₁len hg₁col
  have hg₂len : (F x₀ z₀ g₁).length = S * S * S := by
    rw [Hlen x₀ z₀ g₁ hx₀ hz₀, hg₁len]
  rw [List.foldl_cons]
  obtain ⟨hL2len, hL2col⟩ :=
    foldl_cols_preserve S F Hlocal Hlen x₀ z₀ hx₀ hz₀ t (F x₀ z₀ g₁) hballT hnotT
  constructor
  · rw [hL2len, hg₂len]
  · intro y hy
    rw [hL2col y hy]
    exact hg₂col y hy

/-- The top-of-column scan never returns more than its fuel. -/
theorem findTop_le (g : List Nat) (S x z : Nat) :
    ∀ fuel, findTop g S x z fuel ≤ fuel := by
  intro fuel
  induction fuel with
  | zero => exact Nat.le_refl 0
  | succ f ih =>
    unfold findTop
    split
    · exact Nat.le_succ_of_le ih
    · exact Nat.le_refl _

/-- The contiguous replacement loop writes only inside its own column. -/
theorem contigLoop_local (S x z : Nat) (fromB toB : Int) (depth : Nat) :
    ∀ (fuel : Nat), fuel ≤ S → ∀ (g : List Nat) (replaced i : Nat), ¬ inCol S x z i →
      (contigLoop S x z fromB toB depth g fuel replaced).getD i 0 = g.getD i 0 := by
  intro fuel
  induction fuel with
  | zero => intro _ g r i _; rfl
  | succ f ih =>
    intro hf g r i hni
    have hne : IDX S x f z ≠ i := by
      intro hEq
      exact hni ⟨f, by omega, hEq.symm⟩
    rw [contigLoop]
    simp only []
    split
    · split
      · rfl
      · split
        · rfl
        · rw [ih (by omega) _ _ _ hni, getD_set_ne _ _ _ _ _ hne]
    · rfl

/-- The contiguous replacement loop preserves the buffer length. -/
theorem contigLoop_len (S x z : Nat) (fromB toB : Int) (depth : Nat) :
    ∀ (fuel : Nat) (g : List Nat) (replaced : Nat),
      (contigLoop S x z fromB toB depth g fuel replaced).length = g.length := by
  intro fuel
  induction fuel with
  | zero => intro g r; rfl
  | succ f ih =>
    intro g r
    rw [contigLoop]
    simp only []
    split
    · split
      · rfl
      · split
        · rfl
        · rw [ih, List.length_set]
    · rfl

/-- The any-mode replacement loop writes only inside its own column. -/
theorem anyLoop_local (S x z : Nat) (fromB : Option Int) (toB : Int) (depth : Nat) :
    ∀ (fuel : Nat), fuel ≤ S → ∀ (g : List Nat) (replaced i : Nat), ¬ inCol S x z i →
      (anyLoop S x z fromB toB depth g fuel replaced).getD i 0 = g.getD i 0 := by
  intro fuel
  induction fuel with
  | zero => intro _ g r i _; rfl
  | succ f ih =>
    intro hf g r i hni
    have hne : IDX S x f z ≠ i := by
      intro hEq
      exact hni ⟨f, by omega, hEq.symm⟩
    rw [anyLoop]
    simp only []
    split
    · split
      · rw [ih (by omega) _ _ _ hni, getD_set_ne _ _ _ _ _ hne]
      · rw [ih (by omega) _ _ _ hni]
    · rfl

/-- The any-mode replacement loop preserves the buffer length. -/
theorem anyLoop_len (S x z : Nat) (fromB : Option Int) (toB : Int) (depth : Nat) :
    ∀ (fuel : Nat) (g : List Nat) (replaced : Nat),
      (anyLoop S x z fromB toB depth g fuel replaced).length = g.length := by
  intro fuel
  induction fuel with
  | zero => intro g r; rfl
  | succ f ih =>
    intro g r
    rw [anyLoop]
    simp only []
    split
    · split
      · rw [ih, List.length_set]
      · rw [ih]
    · rfl

/-- The client replacement loop writes only inside its own column
(under the `xyz` layout, whose indexer coincides with `IDX`). -/
theorem paintLoop_local (S x z : Nat) (fromB : Option Nat) (toB : Nat) (depth : ℚ)
    (mode : PaintMode) :
    ∀ (fuel : Nat), fuel ≤ S → ∀ (g : List Nat) (replaced i : Nat), ¬ inCol S x z i →
      (paintLoop .xyz S x z fromB toB depth mode g fuel replaced).getD i 0 = g.getD i 0 := by
  intro fuel
  induction fuel with
  | zero => intro _ g r i _; rfl
  | succ f ih =>
    intro hf g r i hni
    have hne : layoutIDX .xyz S x f z ≠ i := by
      intro hEq
      exact hni ⟨f, by omega, hEq.symm⟩
    rw [paintLoop]
    simp only []
    split
    · split
      · rfl
      · split
        · split
          · rw [ih (by omega) _ _ _ hni, getD_set_ne _ _ _ _ _ hne]
          · rfl
        · split
          · rw [ih (by omega) _ _ _ hni, getD_set_ne _ _ _ _ _ hne]
          · rw [ih (by omega) _ _ _ hni]
    · rfl

/-- The client replacement loop preserves the buffer length. -/
theorem paintLoop_len (L : GridLayout) (S x z : Nat) (fromB : Option Nat) (toB : Nat)
    (depth : ℚ) (mode : PaintMode) :
    ∀ (fuel : Nat) (g : List Nat) (replaced : Nat),
      (paintLoop L S x z fromB toB depth mode g fuel replaced).length = g.length := by
  intro fuel
  induction fuel with
  | zero => intro g r; rfl
  | succ f ih =>
    intro g r
    rw [paintLoop]
    simp only []
    split
    · split
      · rfl
      · split
        · split
          · rw [ih, List.length_set]
          · rfl
        · split
          · rw [ih, List.length_set]
          · rw [ih]
    · rfl

/-- Distinct heights in one column give distinct flat indices. -/
theorem IDX_ne_of_y_ne (S x z y y' : Nat) (hx : x < S) (hz : z < S)
    (hy : y < S) (hy' : y' < S) (h : y ≠ y') : IDX S x y z ≠ IDX S x y' z := by
  intro hEq
  exact h (IDX_inj S x y z x y' z hx hy hz hx hy' hz hEq).2.1

/-- An exhausted budget stops the contiguous loop at once. -/
theorem contigLoop_stop (S x z : Nat) (fromB toB : Int) (depth : Nat)
    (g : List Nat) (fuel replaced : Nat) (h : ¬ replaced < depth) :
    contigLoop S x z fromB toB depth g fuel replaced = g := by
  cases fuel with
  | zero => rfl
  | succ f =>
    rw [contigLoop]
    simp only []
    rw [if_neg h]

/-- An exhausted budget stops the any-mode loop at once. -/
theorem anyLoop_stop (S x z : Nat) (fromB : Option Int) (toB : Int) (depth : Nat)
    (g : List Nat) (fuel replaced : Nat) (h : ¬ replaced < depth) :
    anyLoop S x z fromB toB depth g fuel replaced = g := by
  cases fuel with
  | zero => rfl
  | succ f =>
    rw [anyLoop]
    simp only []
    rw [if_neg h]

/-- Running the contiguous loop over a column whose cells below the fuel
level all hold the matching block `b`: the loop paints the cells from the
fuel level downward until the remaining budget is spent, and leaves
everything else unchanged. -/
theorem contigLoop_run (S x z : Nat) (b : Nat) (toB : Int) (depth : Nat)
    (hx : x < S) (hz : z < S) (hb0 : b ≠ 0) :
    ∀ (fuel : Nat), fuel ≤ S → ∀ (replaced : Nat), replaced ≤ depth →
    ∀ (g : List Nat), g.length = S * S * S →
    (∀ y, y < fuel → g.getD (IDX S x y z) 0 = b) →
    ∀ y, y < S →
      (contigLoop S x z (b : Int) toB depth g fuel replaced).getD (IDX S x y z) 0 =
        if y < fuel ∧ fuel ≤ y + (depth - replaced) then ((toB % 256).toNat)
        else g.getD (IDX S x y z) 0 := by
  intro fuel
  induction fuel with
  | zero =>
    intro _ r _ g _ _ y _
    rw [if_neg (by omega)]
    rfl
  | succ f ih =>
    intro hf r hr g hlen hcolG y hy
    by_cases hrd : r < depth
    · rw [contigLoop]
      simp only []
      rw [if_pos hrd, hcolG f (by omega)]
      rw [if_neg (show ¬(b = Block.Air) from hb0), if_neg (by simp)]
      have hlen' : (g.set (IDX S x f z) ((toB % 256).toNat)).length = S * S * S := by
        rw [List.length_set, hlen]
      have hcol' : ∀ y', y' < f →
          (g.set (IDX S x f z) ((toB % 256).toNat)).getD (IDX S x y' z) 0 = b := by
        intro y' hy'
        rw [getD_set_ne _ _ _ _ _ (IDX_ne_of_y_ne S x z f y' hx hz (by omega) (by omega) (by omega)), hcolG y' (by omega)]
      rw [ih (by omega) (r + 1) (by omega) _ hlen' hcol' y hy]
      by_cases hyf : y = f
      · subst hyf
        rw [if_neg (by omega), if_pos (by omega)]
        exact getD_set_self _ _ _ _ (by rw [hlen]; exact IDX_lt S x y z hx (by omega) hz)
      · by_cases hcond : y < f ∧ f ≤ y + (depth - (r + 1))
        · rw [if_pos hcond, if_pos (by omega)]
        · rw [if_neg hcond,
            getD_set_ne _ _ _ _ _ (IDX_ne_of_y_ne S x z f y hx hz (by omega) hy (fun h => hyf h.symm)),
            if_neg (by omega)]
    · rw [contigLoop_stop _ _ _ _ _ _ _ _ _ hrd, if_neg (by omega)]

/-- The any-mode loop skips a non-matching region without consuming
budget: scanning from `fuel` down to `k` over cells that fail the
replacement test leaves the loop state unchanged. -/
theorem anyLoop_skip (S x z : Nat) (fromB : Option Int) (toB : Int) (depth : Nat)
    (g : List Nat) (k : Nat) :
    ∀ (fuel : Nat), k ≤ fuel →
    (∀ y, k ≤ y → y < fuel →
      ¬(g.getD (IDX S x y z) 0 ≠ Block.Air ∧
        (fromB = none ∨ fromB = some ((g.getD (IDX S x y z) 0 : Nat) : Int)))) →
    ∀ replaced,
      anyLoop S x z fromB toB depth g fuel replaced =
        anyLoop S x z fromB toB depth g k replaced := by
  intro fuel
  induction fuel with
  | zero =>
    intro hk _ _
    have : k = 0 := by omega
    rw [this]
  | succ f ih =>
    intro hk hskip replaced
    by_cases hkf : k = f + 1
    · rw [hkf]
    · have hkf' : k ≤ f := by omega
      by_cases hrd : replaced < depth
      · rw [anyLoop]
        simp only []
        rw [if_pos hrd, if_neg (hskip f hkf' (by omega))]
        exact ih hkf' (fun y hy1 hy2 => hskip y hy1 (by omega)) replaced
      · rw [anyLoop_stop _ _ _ _ _ _ _ _ _ hrd, anyLoop_stop _ _ _ _ _ _ _ _ _ hrd]

/-- Running the any-mode loop over a column whose cells below the fuel
level all hold the matching block `b`: like the contiguous loop, it
paints downward until the budget is spent. -/
theorem anyLoop_run (S x z : Nat) (b : Nat) (toB : Int) (depth : Nat)
    (hx : x < S) (hz : z < S) (hb0 : b ≠ 0) :
    ∀ (fuel : Nat), fuel ≤ S → ∀ (replaced : Nat), replaced ≤ depth →
    ∀ (g : List Nat), g.length = S * S * S →
    (∀ y, y < fuel → g.getD (IDX S x y z) 0 = b) →
    ∀ y, y < S →
      (anyLoop S x z (some (b : Int)) toB depth g fuel replaced).getD (IDX S x y z) 0 =
        if y < fuel ∧ fuel ≤ y + (depth - replaced) then ((toB % 256).toNat)
        else g.getD (IDX S x y z) 0 := by
  intro fuel
  induction fuel with
  | zero =>
    intro _ r _ g _ _ y _
    rw [if_neg (by omega)]
    rfl
  | succ f ih =>
    intro hf r hr g hlen hcolG y hy
    by_cases hrd : r < depth
    · rw [anyLoop]
      simp only []
      rw [if_pos hrd, hcolG f (by omega)]
      rw [if_pos (And.intro (show b ≠ Block.Air from hb0) (Or.inr rfl))]
      have hlen' : (g.set (IDX S x f z) ((toB % 256).toNat)).length = S * S * S := by
        rw [List.length_set, hlen]
      have hcol' : ∀ y', y' < f →
          (g.set (IDX S x f z) ((toB % 256).toNat)).getD (IDX S x y' z) 0 = b := by
        intro y' hy'
        rw [getD_set_ne _ _ _ _ _ (IDX_ne_of_y_ne S x z f y' hx hz (by omega) (by omega) (by omega)), hcolG y' (by omega)]
      rw [ih (by omega) (r + 1) (by omega) _ hlen' hcol' y hy]
      by_cases hyf : y = f
      · subst hyf
        rw [if_neg (by omega), if_pos (by omega)]
        exact getD_set_self _ _ _ _ (by rw [hlen]; exact IDX_lt S x y z hx (by omega) hz)
      · by_cases hcond : y < f ∧ f ≤ y + (depth - (r + 1))
        · rw [if_pos hcond, if_pos (by omega)]
        · rw [if_neg hcond,
            getD_set_ne _ _ _ _ _ (IDX_ne_of_y_ne S x z f y hx hz (by omega) hy (fun h => hyf h.symm)),
            if_neg (by omega)]
    · rw [anyLoop_stop _ _ _ _ _ _ _ _ _ hrd, if_neg (by omega)]

/-- A column whose top cell is solid has its top at `S`. -/
theorem findTop_full (g : List Nat) (S x z : Nat) (hS : 0 < S)
    (htop : g.getD (IDX S x (S - 1) z) 0 ≠ Block.Air) :
    findTop g S x z S = S := by
  obtain ⟨f, rfl⟩ : ∃ f, S = f + 1 := ⟨S - 1, by omega⟩
  rw [show f + 1 - 1 = f from by omega] at htop
  rw [findTop, if_neg htop]

/-- The server's contiguous column operation writes only inside its own
column. -/
theorem contigCol_local (S : Nat) (fromB toB : Int) (d x z : Nat) (g : List Nat)
    (i : Nat) (hni : ¬ inCol S x z i) :
    (contigCol S fromB toB d x z g).getD i 0 = g.getD i 0 :=
  contigLoop_local S x z fromB toB d (findTop g S x z S)
    (findTop_le g S x z S) g 0 i hni

/-- The server's contiguous column operation preserves the length. -/
theorem contigCol_len (S : Nat) (fromB toB : Int) (d x z : Nat) (g : List Nat) :
    (contigCol S fromB toB d x z g).length = g.length :=
  contigLoop_len S x z fromB toB d (findTop g S x z S) g 0

/-- The server's any-mode column operation writes only inside its own
column. -/
theorem anyCol_local (S : Nat) (fromB : Option Int) (toB : Int) (d x z : Nat)
    (g : List Nat) (i : Nat) (hni : ¬ inCol S x z i) :
    (anyCol S fromB toB d x z g).getD i 0 = g.getD i 0 :=
  anyLoop_local S x z fromB toB d (findTop g S x z S)
    (findTop_le g S x z S) g 0 i hni

/-- The server's any-mode column operation preserves the length. -/
theorem anyCol_len (S : Nat) (fromB : Option Int) (toB : Int) (d x z : Nat)
    (g : List Nat) :
    (anyCol S fromB toB d x z g).length = g.length :=
  anyLoop_len S x z fromB toB d (findTop g S x z S) g 0

/-- Grass scenario: the contiguous column operation on a column made
entirely of the matching block paints the top `d` cells. -/
theorem contigCol_uniform (S b : Nat) (toB : Int) (d x z : Nat)
    (hS : 0 < S) (hx : x < S) (hz : z < S) (hb0 : b ≠ 0)
    (g : List Nat) (hlen : g.length = S * S * S)
    (hcol : ∀ y, y < S → g.getD (IDX S x y z) 0 = b) :
    ∀ y, y < S →
      (contigCol S (b : Int) toB d x z g).getD (IDX S x y z) 0 =
        if S ≤ y + d then ((toB % 256).toNat) else b := by
  intro y hy
  unfold contigCol
  rw [findTop_full g S x z hS (by rw [hcol (S - 1) (by omega)]; exact hb0)]
  rw [contigLoop_run S x z b toB d hx hz hb0 S (Nat.le_refl S) 0 (by omega) g hlen
    (fun y' hy' => hcol y' hy') y hy]
  by_cases hc : S ≤ y + d
  · rw [if_pos (by omega), if_pos hc]
  · rw [if_neg (by omega), if_neg hc]
    exact hcol y hy

/-- Dirt scenario: the any-mode column operation on a column whose top
two cells were already painted grass skips them without spending budget
and paints the next `d` matching cells below. -/
theorem anyCol_grassTopped (S b : Nat) (toB : Int) (d x z : Nat)
    (hS : 2 ≤ S) (hx : x < S) (hz : z < S) (hb0 : b ≠ 0) (hb1 : b ≠ 1)
    (g : List Nat) (hlen : g.length = S * S * S)
    (hcol : ∀ y, y < S → g.getD (IDX S x y z) 0 = if S ≤ y + 2 then 1 else b) :
    ∀ y, y < S →
      (anyCol S (some (b : Int)) toB d x z g).getD (IDX S x y z) 0 =
        if S ≤ y + 2 then 1
        else if S ≤ y + 2 + d then ((toB % 256).toNat) else b := by
  intro y hy
  unfold anyCol
  rw [findTop_full g S x z (by omega)
    (by rw [hcol (S - 1) (by omega), if_pos (by omega)]; exact one_ne_zero)]
  rw [anyLoop_skip S x z (some (b : Int)) toB d g (S - 2) S (by omega) ?hskip 0]
  case hskip =>
    intro y' hy1 hy2
    rw [hcol y' (by omega), if_pos (by omega)]
    rintro ⟨h1, h2 | h2⟩
    · exact Option.noConfusion h2
    · have hb1' : b = 1 := by
        have := Option.some.inj h2
        exact_mod_cast this
      exact hb1 hb1'
  rw [anyLoop_run S x z b toB d hx hz hb0 (S - 2) (by omega) 0 (by omega) g hlen
    (fun y' hy' => by rw [hcol y' (by omega), if_neg (by omega)]) y hy]
  by_cases htop : S ≤ y + 2
  · rw [if_neg (by omega), hcol y hy, if_pos htop, if_pos htop]
  · by_cases hpaint : S ≤ y + 2 + d
    · rw [if_pos (by omega), if_neg htop, if_pos hpaint]
    · rw [if_neg (by omega), hcol y hy, if_neg htop, if_neg htop, if_neg hpaint]

/-- Full painting characterization used for the layering claim: on any
column of the grid made entirely of `b`, the grass pass (contiguous,
depth 2) followed by the dirt pass (any-mode, depth 3) leaves the top 2
cells Grass, the 3 cells below Dirt, and the rest untouched. -/
theorem paint_layering (S b x₀ z₀ : Nat) (g : List Nat)
    (hS : 5 ≤ S) (hx : x₀ < S) (hz : z₀ < S)
    (hb0 : b ≠ Block.Air) (hb1 : b ≠ Block.Grass)
    (hlen : g.length = S * S * S)
    (hcol : ∀ y, y < S → g.getD (IDX S x₀ y z₀) 0 = b) :
    ∀ y, y < S →
      (replaceTopAny S (some (b : Int)) (Block.Dirt : Int) 3
        (replaceTopContiguous S (b : Int) (Block.Grass : Int) 2 g)).getD
          (IDX S x₀ y z₀) 0 =
        if S ≤ y + 2 then Block.Grass
        else if S ≤ y + 5 then Block.Dirt else b := by
  have step1 := foldColumns_column S (contigCol S (b : Int) (Block.Grass : Int) 2)
    (fun x z g i _ _ hni => contigCol_local S _ _ 2 x z g i hni)
    (fun x z g _ _ => contigCol_len S _ _ 2 x z g)
    x₀ z₀ hx hz (fun _ => b) (fun y => if S ≤ y + 2 then Block.Grass else b)
    (fun g' hlen' hcol' y hy => by
      rw [contigCol_uniform S b (Block.Grass : Int) 2 x₀ z₀ (by omega) hx hz hb0
        g' hlen' hcol' y hy]
      rfl)
    g hlen hcol
  rw [show replaceTopContiguous S (b : Int) (Block.Grass : Int) 2 g =
    foldColumns S (contigCol S (b : Int) (Block.Grass : Int) 2) g from rfl] at *
  have step2 := foldColumns_column S (anyCol S (some (b : Int)) (Block.Dirt : Int) 3)
    (fun x z g i _ _ hni => anyCol_local S _ _ 3 x z g i hni)
    (fun x z g _ _ => anyCol_len S _ _ 3 x z g)
    x₀ z₀ hx hz (fun y => if S ≤ y + 2 then Block.Grass else b)
    (fun y => if S ≤ y + 2 then Block.Grass else if S ≤ y + 5 then Block.Dirt else b)
    (fun g' hlen' hcol' y hy => by
      rw [anyCol_grassTopped S b (Block.Dirt : Int) 3 x₀ z₀ (by omega) hx hz hb0 hb1
        g' hlen' hcol' y hy]
      simp only []
      by_cases h2 : S ≤ y + 2
      · rw [if_pos h2, if_pos h2]
        rfl
      · rw [if_neg h2, if_neg h2]
        by_cases h5 : S ≤ y + 5
        · rw [if_pos (show S ≤ y + 2 + 3 by omega), if_pos h5]
          rfl
        · rw [if_neg (show ¬ S ≤ y + 2 + 3 by omega), if_neg h5])
    (foldColumns S (contigCol S (b : Int) (Block.Grass : Int) 2) g) step1.1 step1.2
  exact step2.2

/-- The `xyz` layout of the client indexer is the flat `IDX` indexing. -/
theorem layoutIDX_xyz (S x y z : Nat) : layoutIDX .xyz S x y z = IDX S x y z := rfl

/-- An exhausted (rational) budget stops the client loop at once. -/
theorem paintLoop_stop (L : GridLayout) (S x z : Nat) (fromB : Option Nat) (toB : Nat)
    (depth : ℚ) (mode : PaintMode) (g : List Nat) (fuel replaced : Nat)
    (h : ¬ (replaced : ℚ) < depth) :
    paintLoop L S x z fromB toB depth mode g fuel replaced = g := by
  cases fuel with
  | zero => rfl
  | succ f =>
    rw [paintLoop]
    simp only []
    rw [if_neg h]

/-- A column whose top cell is solid has its top at `S` (client scan). -/
theorem clientFindTop_full (g : List Nat) (S x z : Nat) (hS : 0 < S)
    (htop : g.getD (IDX S x (S - 1) z) 0 ≠ 0) :
    clientFindTop g .xyz S x z S = S := by
  obtain ⟨f, rfl⟩ : ∃ f, S = f + 1 := ⟨S - 1, by omega⟩
  rw [show f + 1 - 1 = f from by omega] at htop
  rw [clientFindTop, layoutIDX_xyz, if_neg htop]

/-- Running the client loop in contiguous mode over a column of the
matching block `b` paints the top cells until the integer budget `d` is
spent. -/
theorem paintLoop_run_contig (S x z : Nat) (b toB : Nat) (d : Nat)
    (hx : x < S) (hz : z < S) (hb0 : b ≠ 0) :
    ∀ (fuel : Nat), fuel ≤ S → ∀ (replaced : Nat), replaced ≤ d →
    ∀ (g : List Nat), g.length = S * S * S →
    (∀ y, y < fuel → g.getD (IDX S x y z) 0 = b) →
    ∀ y, y < S →
      (paintLoop .xyz S x z (some b) toB ((d : Nat) : ℚ) .contiguous g fuel replaced).getD
          (IDX S x y z) 0 =
        if y < fuel ∧ fuel ≤ y + (d - replaced) then toB
        else g.getD (IDX S x y z) 0 := by
  intro fuel
  induction fuel with
  | zero =>
    intro _ r _ g _ _ y _
    rw [if_neg (by omega)]
    rfl
  | succ f ih =>
    intro hf r hr g hlen hcolG y hy
    by_cases hrd : r < d
    · rw [paintLoop]
      simp only []
      rw [if_pos (by exact_mod_cast hrd : (r : ℚ) < ((d : Nat) : ℚ)), layoutIDX_xyz,
        hcolG f (by omega)]
      rw [if_neg hb0, if_pos (Or.inr rfl), if_pos trivial]
      have hlen' : (g.set (IDX S x f z) toB).length = S * S * S := by
        rw [List.length_set, hlen]
      have hcol' : ∀ y', y' < f →
          (g.set (IDX S x f z) toB).getD (IDX S x y' z) 0 = b := by
        intro y' hy'
        rw [getD_set_ne _ _ _ _ _ (IDX_ne_of_y_ne S x z f y' hx hz (by omega) (by omega) (by omega)), hcolG y' (by omega)]
      rw [ih (by omega) (r + 1) (by omega) _ hlen' hcol' y hy]
      by_cases hyf : y = f
      · subst hyf
        rw [if_neg (by omega), if_pos (by omega)]
        exact getD_set_self _ _ _ _ (by rw [hlen]; exact IDX_lt S x y z hx (by omega) hz)
      · by_cases hcond : y < f ∧ f ≤ y + (d - (r + 1))
        · rw [if_pos hcond, if_pos (by omega)]
        · rw [if_neg hcond,
            getD_set_ne _ _ _ _ _ (IDX_ne_of_y_ne S x z f y hx hz (by omega) hy (fun h => hyf h.symm)),
            if_neg (by omega)]
    · rw [paintLoop_stop _ _ _ _ _ _ _ _ _ _ _ (by exact_mod_cast hrd : ¬ (r : ℚ) < ((d : Nat) : ℚ)), if_neg (by omega)]

/-- The client any-mode loop skips a non-matching solid region without
consuming budget. -/
theorem paintLoop_skip_any (S x z : Nat) (fromB : Option Nat) (toB : Nat)
    (depth : ℚ) (g : List Nat) (k : Nat) :
    ∀ (fuel : Nat), k ≤ fuel →
    (∀ y, k ≤ y → y < fuel →
      g.getD (IDX S x y z) 0 ≠ 0 ∧
      ¬(fromB = none ∨ fromB = some (g.getD (IDX S x y z) 0))) →
    ∀ replaced,
      paintLoop .xyz S x z fromB toB depth .any g fuel replaced =
        paintLoop .xyz S x z fromB toB depth .any g k replaced := by
  intro fuel
  induction fuel with
  | zero =>
    intro hk _ _
    have : k = 0 := by omega
    rw [this]
  | succ f ih =>
    intro hk hskip replaced
    by_cases hkf : k = f + 1
    · rw [hkf]
    · have hkf' : k ≤ f := by omega
      by_cases hrd : (replaced : ℚ) < depth
      · rw [paintLoop]
        simp only []
        rw [if_pos hrd, layoutIDX_xyz,
          if_neg (hskip f hkf' (by omega)).1,
          if_neg (show ¬(PaintMode.any = PaintMode.contiguous) by decide),
          if_neg (hskip f hkf' (by omega)).2]
        exact ih hkf' (fun y hy1 hy2 => hskip y hy1 (by omega)) replaced
      · rw [paintLoop_stop _ _ _ _ _ _ _ _ _ _ _ hrd, paintLoop_stop _ _ _ _ _ _ _ _ _ _ _ hrd]

/-- Running the client loop in any mode over a column of the matching
block `b` paints downward until the integer budget `d` is spent. -/
theorem paintLoop_run_any (S x z : Nat) (b toB : Nat) (d : Nat)
    (hx : x < S) (hz : z < S) (hb0 : b ≠ 0) :
    ∀ (fuel : Nat), fuel ≤ S → ∀ (replaced : Nat), replaced ≤ d →
    ∀ (g : List Nat), g.length = S * S * S →
    (∀ y, y < fuel → g.getD (IDX S x y z) 0 = b) →
    ∀ y, y < S →
      (paintLoop .xyz S x z (some b) toB ((d : Nat) : ℚ) .any g fuel replaced).getD
          (IDX S x y z) 0 =
        if y < fuel ∧ fuel ≤ y + (d - replaced) then toB
        else g.getD (IDX S x y z) 0 := by
  intro fuel
  induction fuel with
  | zero =>
    intro _ r _ g _ _ y _
    rw [if_neg (by omega)]
    rfl
  | succ f ih =>
    intro hf r hr g hlen hcolG y hy
    by_cases hrd : r < d
    · rw [paintLoop]
      simp only []
      rw [if_pos (by exact_mod_cast hrd : (r : ℚ) < ((d : Nat) : ℚ)), layoutIDX_xyz,
        hcolG f (by omega)]
      rw [if_neg hb0, if_neg (show ¬(PaintMode.any = PaintMode.contiguous) by decide),
        if_pos (Or.inr rfl)]
      have hlen' : (g.set (IDX S x f z) toB).length = S * S * S := by
        rw [List.length_set, hlen]
      have hcol' : ∀ y', y' < f →
          (g.set (IDX S x f z) toB).getD (IDX S x y' z) 0 = b := by
        intro y' hy'
        rw [getD_set_ne _ _ _ _ _ (IDX_ne_of_y_ne S x z f y' hx hz (by omega) (by omega) (by omega)), hcolG y' (by omega)]
      rw [ih (by omega) (r + 1) (by omega) _ hlen' hcol' y hy]
      by_cases hyf : y = f
      · subst hyf
        rw [if_neg (by omega), if_pos (by omega)]
        exact getD_set_self _ _ _ _ (by rw [hlen]; exact IDX_lt S x y z hx (by omega) hz)
      · by_cases hcond : y < f ∧ f ≤ y + (d - (r + 1))
        · rw [if_pos hcond, if_pos (by omega)]
        · rw [if_neg hcond,
            getD_set_ne _ _ _ _ _ (IDX_ne_of_y_ne S x z f y hx hz (by omega) hy (fun h => hyf h.symm)),
            if_neg (by omega)]
    · rw [paintLoop_stop _ _ _ _ _ _ _ _ _ _ _ (by exact_mod_cast hrd : ¬ (r : ℚ) < ((d : Nat) : ℚ)), if_neg (by omega)]

/-- The client top-of-column scan never returns more than its fuel. -/
theorem clientFindTop_le (g : List Nat) (L : GridLayout) (S x z : Nat) :
    ∀ fuel, clientFindTop g L S x z fuel ≤ fuel := by
  intro fuel
  induction fuel with
  | zero => exact Nat.le_refl 0
  | succ f ih =>
    unfold clientFindTop
    split
    · exact Nat.le_succ_of_le ih
    · exact Nat.le_refl _

/-- The client column operation writes only inside its own column. -/
theorem paintCol_local (S : Nat) (fromB : Option Nat) (toB : Nat) (depth : ℚ)
    (mode : PaintMode) (x z : Nat) (g : List Nat) (i : Nat) (hni : ¬ inCol S x z i) :
    (paintCol .xyz S fromB toB depth mode x z g).getD i 0 = g.getD i 0 :=
  paintLoop_local S x z fromB toB depth mode (clientFindTop g .xyz S x z S)
    (clientFindTop_le g .xyz S x z S) g 0 i hni

/-- The client column operation preserves the buffer length. -/
theorem paintCol_len (S : Nat) (fromB : Option Nat) (toB : Nat) (depth : ℚ)
    (mode : PaintMode) (x z : Nat) (g : List Nat) :
    (paintCol .xyz S fromB toB depth mode x z g).length = g.length :=
  paintLoop_len .xyz S x z fromB toB depth mode (clientFindTop g .xyz S x z S) g 0

/-- Client grass scenario: contiguous painting with an integral float
budget on a column made of the matching block. -/
theorem paintCol_uniform (S b toB d : Nat) (dq : ℚ) (hdq : dq = (d : ℚ)) (x z : Nat)
    (hS : 0 < S) (hx : x < S) (hz : z < S) (hb0 : b ≠ 0)
    (g : List Nat) (hlen : g.length = S * S * S)
    (hcol : ∀ y, y < S → g.getD (IDX S x y z) 0 = b) :
    ∀ y, y < S →
      (paintCol .xyz S (some b) toB dq .contiguous x z g).getD (IDX S x y z) 0 =
        if S ≤ y + d then toB else b := by
  intro y hy
  unfold paintCol
  rw [hdq, clientFindTop_full g S x z hS (by rw [hcol (S - 1) (by omega)]; exact hb0)]
  rw [paintLoop_run_contig S x z b toB d hx hz hb0 S (Nat.le_refl S) 0 (by omega) g hlen
    (fun y' hy' => hcol y' hy') y hy]
  by_cases hc : S ≤ y + d
  · rw [if_pos (by omega), if_pos hc]
  · rw [if_neg (by omega), if_neg hc]
    exact hcol y hy

/-- Client dirt scenario: any-mode painting with an integral float
budget on a column whose top two cells are already grass. -/
theorem paintCol_grassTopped (S b toB d : Nat) (dq : ℚ) (hdq : dq = (d : ℚ)) (x z : Nat)
    (hS : 2 ≤ S) (hx : x < S) (hz : z < S) (hb0 : b ≠ 0) (hb1 : b ≠ 1)
    (g : List Nat) (hlen : g.length = S * S * S)
    (hcol : ∀ y, y < S → g.getD (IDX S x y z) 0 = if S ≤ y + 2 then 1 else b) :
    ∀ y, y < S →
      (paintCol .xyz S (some b) toB dq .any x z g).getD (IDX S x y z) 0 =
        if S ≤ y + 2 then 1
        else if S ≤ y + 2 + d then toB else b := by
  intro y hy
  unfold paintCol
  rw [hdq, clientFindTop_full g S x z (by omega)
    (by rw [hcol (S - 1) (by omega), if_pos (by omega)]; exact one_ne_zero)]
  rw [paintLoop_skip_any S x z (some b) toB ((d : Nat) : ℚ) g (S - 2) S (by omega) ?hskip 0]
  case hskip =>
    intro y' hy1 hy2
    rw [hcol y' (by omega), if_pos (by omega)]
    refine ⟨one_ne_zero, ?_⟩
    rintro (h | h)
    · exact Option.noConfusion h
    · exact hb1 (Option.some.inj h)
  rw [paintLoop_run_any S x z b toB d hx hz hb0 (S - 2) (by omega) 0 (by omega) g hlen
    (fun y' hy' => by rw [hcol y' (by omega), if_neg (by omega)]) y hy]
  by_cases htop : S ≤ y + 2
  · rw [if_neg (by omega), hcol y hy, if_pos htop, if_pos htop]
  · by_cases hpaint : S ≤ y + 2 + d
    · rw [if_pos (by omega), if_neg htop, if_pos hpaint]
    · rw [if_neg (by omega), hcol y hy, if_neg htop, if_neg htop, if_neg hpaint]

/-- Column characterization of the client fallback chunk: grass two
deep on top, dirt for the next `d` cells when the random draw `r`
yields the budget `r*4 + 1 = d`, stone below. -/
theorem fallback_column (d : Nat) (r : ℚ) (hd : r * 4 + 1 = (d : ℚ)) :
    ∀ y, y < 16 →
      (fallbackChunk r).getD (IDX 16 0 y 0) 0 =
        if 16 ≤ y + 2 then Block.Grass
        else if 16 ≤ y + 2 + d then Block.Dirt else BASE_BLOCK := by
  have hlen0 : (generateChunk CHUNK BASE_BLOCK).length = 16 * 16 * 16 := by
    unfold generateChunk CHUNK
    rw [List.length_replicate]
  have hcol0 : ∀ y, y < 16 →
      (generateChunk CHUNK BASE_BLOCK).getD (IDX 16 0 y 0) 0 = BASE_BLOCK := by
    intro y hy
    unfold generateChunk CHUNK BASE_BLOCK Block.Stone
    exact getD_replicate _ _ _ _ (lt_of_lt_of_le (IDX_lt 16 0 y 0 (by omega) hy (by omega)) (by norm_num))
  have step1 := foldColumns_column 16 (paintCol .xyz 16 (some BASE_BLOCK) Block.Grass 2 .contiguous)
    (fun x z g i _ _ hni => paintCol_local 16 _ _ _ _ x z g i hni)
    (fun x z g _ _ => paintCol_len 16 _ _ _ _ x z g)
    0 0 (by omega) (by omega) (fun _ => BASE_BLOCK)
    (fun y => if 16 ≤ y + 2 then Block.Grass else BASE_BLOCK)
    (fun g' hlen' hcol' y hy => by
      rw [paintCol_uniform 16 BASE_BLOCK Block.Grass 2 2 (by norm_num) 0 0 (by omega)
        (by omega) (by omega) (by decide) g' hlen' hcol' y hy])
    (generateChunk CHUNK BASE_BLOCK) hlen0 hcol0
  have step2 := foldColumns_column 16 (paintCol .xyz 16 (some BASE_BLOCK) Block.Dirt (r * 4 + 1) .any)
    (fun x z g i _ _ hni => paintCol_local 16 _ _ _ _ x z g i hni)
    (fun x z g _ _ => paintCol_len 16 _ _ _ _ x z g)
    0 0 (by omega) (by omega)
    (fun y => if 16 ≤ y + 2 then Block.Grass else BASE_BLOCK)
    (fun y => if 16 ≤ y + 2 then Block.Grass else if 16 ≤ y + 2 + d then Block.Dirt else BASE_BLOCK)
    (fun g' hlen' hcol' y hy => by
      rw [paintCol_grassTopped 16 BASE_BLOCK Block.Dirt d (r * 4 + 1) hd 0 0 (by omega)
        (by omega) (by omega) (by decide) (by decide) g' hlen' hcol' y hy]
      rfl)
    (foldColumns 16 (paintCol .xyz 16 (some BASE_BLOCK) Block.Grass 2 .contiguous)
      (generateChunk CHUNK BASE_BLOCK)) step1.1 step1.2
  exact step2.2

/-- C5 counterexample: the claim quantifies over every column made of
`baseBlockId`, but for `baseBlockId = Grass` (a height-5 all-grass
column, chunk size 5) the dirt pass matches the grass skin itself, so
the final top voxel is Dirt, not Grass as the claim requires. -/
theorem claim_C5_counterexample :
    (List.replicate 125 Block.Grass).getD (IDX 5 0 4 0) 0 = Block.Grass ∧
    (replaceTopAny 5 (some ((Block.Grass : Nat) : Int)) (Block.Dirt : Int) 3
      (replaceTopContiguous 5 ((Block.Grass : Nat) : Int) (Block.Grass : Int) 2
        (List.replicate 125 Block.Grass))).getD (IDX 5 0 4 0) 0 = Block.Dirt ∧
    Block.Dirt ≠ Block.Grass := by
  constructor
  · decide
  · constructor
    · decide
    · decide

/-- C5 (amended): for every column (x₀, z₀) whose voxels are all equal
to `baseBlockId` (height `S ≥ 5`), provided `baseBlockId` is neither Air
(such a column is empty and painting skips it) nor Grass (the dirt pass
would overwrite the grass skin), the grass pass with `grassDepth = 2`
followed by the dirt pass with `dirtDepth = 3` leaves the top 2 voxels
Grass, the next 3 voxels Dirt, and every other voxel unchanged — so
exactly the top 5 cells are painted. -/
theorem claim_C5 (S b x₀ z₀ : Nat) (g : List Nat)
    (hS : 5 ≤ S) (hx : x₀ < S) (hz : z₀ < S)
    (hb0 : b ≠ Block.Air) (hb1 : b ≠ Block.Grass)
    (hlen : g.length = S * S * S)
    (hcol : ∀ y, y < S → g.getD (IDX S x₀ y z₀) 0 = b) :
    ∀ y, y < S →
      (replaceTopAny S (some (b : Int)) (Block.Dirt : Int) 3
        (replaceTopContiguous S (b : Int) (Block.Grass : Int) 2 g)).getD
          (IDX S x₀ y z₀) 0 =
        if S ≤ y + 2 then Block.Grass
        else if S ≤ y + 5 then Block.Dirt else b :=
  paint_layering S b x₀ z₀ g hS hx hz hb0 hb1 hlen hcol

/-- Witness for C5: a concrete all-stone 5-chunk; after the two passes
the top voxel of column (0,0) is Grass and the middle voxel is Dirt. -/
theorem claim_C5_witness :
    (replaceTopAny 5 (some ((3 : Nat) : Int)) (Block.Dirt : Int) 3
      (replaceTopContiguous 5 ((3 : Nat) : Int) (Block.Grass : Int) 2
        (List.replicate 125 (3 : Nat)))).getD (IDX 5 0 4 0) 0 = Block.Grass := by
  have h := claim_C5 5 3 0 0 (List.replicate 125 3) (by omega) (by omega) (by omega)
    (by decide) (by decide) (by rw [List.length_replicate])
    (fun y hy => getD_replicate 125 3 (IDX 5 0 y 0) 0
      (lt_of_lt_of_le (IDX_lt 5 0 y 0 (by omega) hy (by omega)) (by norm_num)))
    4 (by omega)
  rw [h, if_pos (by omega)]

/-- C10: the locally generated fallback chunk is not a deterministic
function of (seed, coordinate): the dirt depth comes from a fresh
`Math.random()` draw, so two executions with the draws 0 and 1/2 (both
legal values of `Math.random()`, which ranges over `[0,1)`) produce
buffers that differ — here at voxel (0, 12, 0). -/
theorem claim_C10 :
    fallbackChunk 0 ≠ fallbackChunk (1/2) ∧
    ((0 : ℚ) ≤ 0 ∧ (0 : ℚ) < 1) ∧ ((0 : ℚ) ≤ 1/2 ∧ (1/2 : ℚ) < 1) := by
  refine ⟨?_, ⟨le_refl 0, by norm_num⟩, ⟨by norm_num, by norm_num⟩⟩
  intro h
  have h1 := fallback_column 1 0 (by norm_num) 12 (by omega)
  have h2 := fallback_column 3 (1/2) (by norm_num) 12 (by omega)
  rw [h, h2] at h1
  rw [if_neg (show ¬(16 ≤ 12 + 2) by omega), if_neg (show ¬(16 ≤ 12 + 2) by omega),
    if_neg (show ¬(16 ≤ 12 + 2 + 1) by omega), if_pos (show 16 ≤ 12 + 2 + 3 by omega)] at h1
  exact absurd h1 (by decide)

/-- C1: `generateChunkServer` is deterministic — it is a pure function
of its `Params` argument (the only randomness in scope, `Math.random()`
as default `makeNoise` seed, is never used since both noise seeds are
always passed explicitly), so two calls on params whose eleven fields
are equal return byte-identical voxel buffers. -/
theorem claim_C1 (p₁ p₂ : Params)
    (hsize : p₁.size = p₂.size) (hseed : p₁.seed = p₂.seed)
    (hbase : p₁.base = p₂.base) (hcx : p₁.cx = p₂.cx) (hcy : p₁.cy = p₂.cy)
    (hcz : p₁.cz = p₂.cz) (hsurf : p₁.surfaceScale = p₂.surfaceScale)
    (hcsc : p₁.cavesScale = p₂.cavesScale)
    (hcth : p₁.cavesThreshold = p₂.cavesThreshold)
    (hgd : p₁.grassDepth = p₂.grassDepth) (hdd : p₁.dirtDepth = p₂.dirtDepth) :
    generateChunkServer p₁ = generateChunkServer p₂ := by
  cases p₁
  cases p₂
  simp only [] at hsize hseed hbase hcx hcy hcz hsurf hcsc hcth hgd hdd
  subst hsize hseed hbase hcx hcy hcz hsurf hcsc hcth hgd hdd
  rfl

/-- Witness for C1 at a concrete parameter record. -/
theorem claim_C1_witness :
    generateChunkServer
        { size := 4, seed := "seed", base := 3, cx := 0, cy := 0, cz := 0,
          surfaceScale := 1/25, cavesScale := 4/25, cavesThreshold := 18/25,
          grassDepth := 2, dirtDepth := 3 } =
      generateChunkServer
        { size := 4, seed := "seed", base := 3, cx := 0, cy := 0, cz := 0,
          surfaceScale := 1/25, cavesScale := 4/25, cavesThreshold := 18/25,
          grassDepth := 2, dirtDepth := 3 } :=
  claim_C1 _ _ rfl rfl rfl rfl rfl rfl rfl rfl rfl rfl rfl

/-- One step of `mix` only xors a per-element finalizer value into the
accumulator, so the whole fold is the initial basis xored with an
order-insensitive combination of the finalized inputs. -/
theorem mix_foldl_eq_xor (l : List Int) :
    ∀ init : Nat,
      l.foldl (fun h n => h ^^^ fmix32 n) init =
        init ^^^ l.foldr (fun n acc => fmix32 n ^^^ acc) 0 := by
  induction l with
  | nil => intro init; simp
  | cons a l ih =>
    intro init
    rw [List.foldl_cons, List.foldr_cons, ih (init ^^^ fmix32 a), Nat.xor_assoc]

/-- The xor-fold of the finalized inputs is invariant under permutation. -/
theorem xorfold_perm (l l' : List Int) (h : l.Perm l') :
    l.foldr (fun n acc => fmix32 n ^^^ acc) 0 =
      l'.foldr (fun n acc => fmix32 n ^^^ acc) 0 := by
  induction h with
  | nil => rfl
  | cons a h ih => rw [List.foldr_cons, List.foldr_cons, ih]
  | swap a b l =>
    rw [List.foldr_cons, List.foldr_cons, List.foldr_cons, List.foldr_cons,
      ← Nat.xor_assoc, ← Nat.xor_assoc, Nat.xor_comm (fmix32 b) (fmix32 a)]
  | trans h₁ h₂ ih₁ ih₂ => rw [ih₁, ih₂]

/-- Permutation invariance of `mix`. -/
theorem mix_perm (l l' : List Int) (h : l.Perm l') : mix l = mix l' := by
  unfold mix
  rw [mix_foldl_eq_xor, mix_foldl_eq_xor, xorfold_perm l l' h]

/-- C2 counterexample: the claim asserts that some permutation of some
input list changes the result of `mix`; in fact `mix` xor-accumulates a
per-element finalizer with no positional constants, so no permutation of
any list ever changes the result. -/
theorem claim_C2_counterexample :
    ¬ ∃ (l l' : List Int), l.Perm l' ∧ mix l ≠ mix l' := by
  rintro ⟨l, l', hperm, hne⟩
  exact hne (mix_perm l l' hperm)

/-- C2 (amended): the order of inputs to `mix` does not matter — `mix`
is invariant under every reordering of its argument list, because the
MurmurHash3 finalizer is applied to each input separately and the
results are combined with the commutative, associative xor.  (Callers
may still pass inputs in the documented fixed order, but no correctness
property depends on it.) -/
theorem claim_C2 (l l' : List Int) (h : l.Perm l') : mix l = mix l' :=
  mix_perm l l' h

/-- Witness for C2: the two orders of the pair (400, 161) mix equally. -/
theorem claim_C2_witness : mix [400, 161] = mix [161, 400] :=
  claim_C2 [400, 161] [161, 400] (List.Perm.swap 161 400 [])

/-- The fade polynomial maps the unit interval into itself. -/
theorem fade_mem (t : ℚ) (h0 : 0 ≤ t) (h1 : t ≤ 1) : 0 ≤ fade t ∧ fade t ≤ 1 := by
  unfold fade
  constructor
  · nlinarith [sq_nonneg (4*t - 5), mul_nonneg (mul_nonneg h0 h0) h0]
  · have hA : (0:ℚ) ≤ 1 - t := by linarith
    have hB : (0:ℚ) ≤ (1-t) * (1-t) * (1-t) := mul_nonneg (mul_nonneg hA hA) hA
    have hC : (0:ℚ) ≤ 6*t*t + 3*t + 1 := by nlinarith [mul_nonneg h0 h0]
    nlinarith [mul_nonneg hB hC]

/-- Every gradient dot product of unit-box offsets lies in [-2, 2]:
the gradient adds or subtracts two of the three coordinates. -/
theorem grad_bound (hsh : Nat) (a b c : ℚ)
    (ha : -1 ≤ a ∧ a ≤ 1) (hb : -1 ≤ b ∧ b ≤ 1) (hc : -1 ≤ c ∧ c ≤ 1) :
    -2 ≤ grad hsh a b c ∧ grad hsh a b c ≤ 2 := by
  unfold grad
  simp only []
  split_ifs <;> constructor <;>
    linarith [ha.1, ha.2, hb.1, hb.2, hc.1, hc.2]

/-- Linear interpolation with a weight in [0,1] stays in the interval
of its endpoints. -/
theorem lerp_bound (lo hi a b t : ℚ) (ha : lo ≤ a ∧ a ≤ hi) (hb : lo ≤ b ∧ b ≤ hi)
    (ht : 0 ≤ t ∧ t ≤ 1) : lo ≤ lerp a b t ∧ lerp a b t ≤ hi := by
  unfold lerp
  constructor
  · nlinarith [mul_nonneg ht.1 (sub_nonneg.mpr hb.1),
      mul_nonneg (sub_nonneg.mpr ht.2) (sub_nonneg.mpr ha.1)]
  · nlinarith [mul_nonneg ht.1 (sub_nonneg.mpr hb.2),
      mul_nonneg (sub_nonneg.mpr ht.2) (sub_nonneg.mpr ha.2)]

/-- The trilinear interpolation of eight values in [-2, 2], rescaled by
`* 0.5 + 0.5`, never exceeds 3/2. -/
theorem noiseInterp_le (g1 g2 g3 g4 g5 g6 g7 g8 u v w : ℚ)
    (h1 : -2 ≤ g1 ∧ g1 ≤ 2) (h2 : -2 ≤ g2 ∧ g2 ≤ 2)
    (h3 : -2 ≤ g3 ∧ g3 ≤ 2) (h4 : -2 ≤ g4 ∧ g4 ≤ 2)
    (h5 : -2 ≤ g5 ∧ g5 ≤ 2) (h6 : -2 ≤ g6 ∧ g6 ≤ 2)
    (h7 : -2 ≤ g7 ∧ g7 ≤ 2) (h8 : -2 ≤ g8 ∧ g8 ≤ 2)
    (hu : 0 ≤ u ∧ u ≤ 1) (hv : 0 ≤ v ∧ v ≤ 1) (hw : 0 ≤ w ∧ w ≤ 1) :
    lerp (lerp (lerp g1 g2 u) (lerp g3 g4 u) v)
      (lerp (lerp g5 g6 u) (lerp g7 g8 u) v) w * (1/2) + 1/2 ≤ 3/2 := by
  have A := lerp_bound (-2) 2 g1 g2 u h1 h2 hu
  have B := lerp_bound (-2) 2 g3 g4 u h3 h4 hu
  have C := lerp_bound (-2) 2 _ _ v A B hv
  have D := lerp_bound (-2) 2 g5 g6 u h5 h6 hu
  have E := lerp_bound (-2) 2 g7 g8 u h7 h8 hu
  have F := lerp_bound (-2) 2 _ _ v D E hv
  have G := lerp_bound (-2) 2 _ _ w C F hw
  linarith [G.2]

/-- The Perlin sample of `makeNoise` never exceeds 3/2, for every seed
and every sample point. -/
theorem makeNoise_le (seed x y z : ℚ) : makeNoise seed x y z ≤ 3/2 := by
  have hx0 : (0:ℚ) ≤ x - ⌊x⌋ := sub_nonneg.mpr (Int.floor_le x)
  have hx1 : x - ⌊x⌋ ≤ 1 := by
    have := Int.lt_floor_add_one x
    push_cast at this ⊢
    linarith
  have hy0 : (0:ℚ) ≤ y - ⌊y⌋ := sub_nonneg.mpr (Int.floor_le y)
  have hy1 : y - ⌊y⌋ ≤ 1 := by
    have := Int.lt_floor_add_one y
    push_cast at this ⊢
    linarith
  have hz0 : (0:ℚ) ≤ z - ⌊z⌋ := sub_nonneg.mpr (Int.floor_le z)
  have hz1 : z - ⌊z⌋ ≤ 1 := by
    have := Int.lt_floor_add_one z
    push_cast at this ⊢
    linarith
  have bX : -1 ≤ x - ⌊x⌋ ∧ x - ⌊x⌋ ≤ 1 := ⟨by linarith, hx1⟩
  have bX' : -1 ≤ x - ⌊x⌋ - 1 ∧ x - ⌊x⌋ - 1 ≤ 1 := ⟨by linarith, by linarith⟩
  have bY : -1 ≤ y - ⌊y⌋ ∧ y - ⌊y⌋ ≤ 1 := ⟨by linarith, hy1⟩
  have bY' : -1 ≤ y - ⌊y⌋ - 1 ∧ y - ⌊y⌋ - 1 ≤ 1 := ⟨by linarith, by linarith⟩
  have bZ : -1 ≤ z - ⌊z⌋ ∧ z - ⌊z⌋ ≤ 1 := ⟨by linarith, hz1⟩
  have bZ' : -1 ≤ z - ⌊z⌋ - 1 ∧ z - ⌊z⌋ - 1 ≤ 1 := ⟨by linarith, by linarith⟩
  unfold makeNoise
  simp only []
  exact noiseInterp_le _ _ _ _ _ _ _ _ _ _ _
    (grad_bound _ _ _ _ bX bY bZ) (grad_bound _ _ _ _ bX' bY bZ)
    (grad_bound _ _ _ _ bX bY' bZ) (grad_bound _ _ _ _ bX' bY' bZ)
    (grad_bound _ _ _ _ bX bY bZ') (grad_bound _ _ _ _ bX' bY bZ')
    (grad_bound _ _ _ _ bX bY' bZ') (grad_bound _ _ _ _ bX' bY' bZ')
    (fade_mem _ hx0 hx1) (fade_mem _ hy0 hy1) (fade_mem _ hz0 hz1)

/-- A fold whose step never changes the accumulator returns it. -/
theorem foldl_fixed {α β : Type} (f : α → β → α) (hf : ∀ a b, f a b = a) :
    ∀ (l : List β) (a : α), l.foldl f a = a := by
  intro l
  induction l with
  | nil => intro a; rfl
  | cons b l ih => intro a; rw [List.foldl_cons, hf a b, ih a]

/-- C3 (amended): whenever `cavesThreshold` is at least 3/2, the
cave-carving phase is the identity on every grid: the Perlin sample is
bounded by 3/2 and the carving test is strict. -/
theorem claim_C3 (p : Params) (g : List Nat) (h : 3/2 ≤ p.cavesThreshold) :
    caveCarve p g = g := by
  unfold caveCarve
  simp only []
  refine foldl_fixed _ ?_ _ _
  intro a x
  refine foldl_fixed _ ?_ _ _
  intro a y
  refine foldl_fixed _ ?_ _ _
  intro a z
  exact if_neg (not_lt.mpr (le_trans (makeNoise_le _ _ _ _) h))

/-- Witness for C3 (amended): with threshold 3/2 the carving phase leaves
a concrete one-voxel grid untouched. -/
theorem claim_C3_witness :
    (3:ℚ)/2 ≤ thrP.cavesThreshold ∧ caveCarve thrP [3] = [3] :=
  ⟨le_refl _, claim_C3 thrP [3] (le_refl _)⟩

set_option maxHeartbeats 4000000 in
attribute [local semireducible] Rat.add Rat.mul Rat.sub Rat.inv in
/-- Counterexample to C3 as stated: for the concrete parameters `caveP`
(size 4, seed "1", chunk (100,100,100), cavesScale 0.0037,
cavesThreshold exactly 1), voxel (0,0,0) survives the surface phase as
Stone but the cave phase sets it to Air — the Perlin sample there
strictly exceeds 1. -/
theorem claim_C3_counterexample :
    (surfaceCarve caveP (baseFill caveP)).getD 0 0 = Block.Stone ∧
    (caveCarve caveP (surfaceCarve caveP (baseFill caveP))).getD 0 0 = Block.Air ∧
    caveP.cavesThreshold = 1 := by
  refine ⟨?_, ?_, rfl⟩ <;> decide

/-! String machinery for the cache-key injectivity claim. -/

/-- Distinct decimal digits render to distinct characters. -/
theorem dchar_inj : ∀ d1, d1 < 10 → ∀ d2, d2 < 10 →
    Char.ofNat (48 + d1) = Char.ofNat (48 + d2) → d1 = d2 := by decide

/-- A decimal digit character is neither the minus sign nor the slash. -/
theorem digitChar_ne : ∀ d, d < 10 →
    Char.ofNat (48 + d) ≠ '-' ∧ Char.ofNat (48 + d) ≠ '/' := by decide

/-- Mapping digit lists to character lists is injective. -/
theorem digitsMap_inj : ∀ (l1 l2 : List Nat), (∀ d ∈ l1, d < 10) → (∀ d ∈ l2, d < 10) →
    l1.map (fun d => Char.ofNat (48 + d)) = l2.map (fun d => Char.ofNat (48 + d)) →
    l1 = l2 := by
  intro l1
  induction l1 with
  | nil =>
    intro l2 _ _ he
    cases l2 with
    | nil => rfl
    | cons b t => simp at he
  | cons a t ih =>
    intro l2 h1 h2 he
    cases l2 with
    | nil => simp at he
    | cons b t2 =>
      simp only [List.map_cons, List.cons.injEq] at he
      have ha : a < 10 := h1 a (List.mem_cons_self a t)
      have hb : b < 10 := h2 b (List.mem_cons_self b t2)
      rw [dchar_inj a ha b hb he.1,
        ih t2 (fun d hd => h1 d (List.mem_cons_of_mem _ hd))
          (fun d hd => h2 d (List.mem_cons_of_mem _ hd)) he.2]

/-- Equal character renderings force equal digit lists. -/
theorem natChars_to_digits {m n : Nat} (h : natChars m = natChars n) :
    Nat.digits 10 m = Nat.digits 10 n := by
  unfold natChars at h
  have h2 : (Nat.digits 10 m).map (fun d => Char.ofNat (48 + d)) =
      (Nat.digits 10 n).map (fun d => Char.ofNat (48 + d)) := by
    have := congrArg List.reverse h
    simpa using this
  exact digitsMap_inj _ _ (fun d hd => Nat.digits_lt_base (by norm_num) hd)
    (fun d hd => Nat.digits_lt_base (by norm_num) hd) h2

/-- The digit-character rendering of a natural number is injective. -/
theorem natChars_inj {m n : Nat} (h : natChars m = natChars n) : m = n := by
  have hd := natChars_to_digits h
  have h1 := Nat.ofDigits_digits 10 m
  have h2 := Nat.ofDigits_digits 10 n
  rw [← h1, ← h2, hd]

/-- Only zero renders to the single character list `['0']` (in fact zero
renders to the empty list, so no number does). -/
theorem natChars_singleton {n : Nat} (h : natChars n = ['0']) : n = 0 := by
  unfold natChars at h
  have h2 : (Nat.digits 10 n).map (fun d => Char.ofNat (48 + d)) = [Char.ofNat 48] := by
    have := congrArg List.reverse h
    simpa using this
  have hd : Nat.digits 10 n = [0] :=
    digitsMap_inj _ [0] (fun d hd => Nat.digits_lt_base (by norm_num) hd)
      (by intro d hd; simp at hd; omega) (by rw [h2]; rfl)
  have h3 := Nat.ofDigits_digits 10 n
  rw [hd] at h3
  simpa using h3.symm

/-- Decimal rendering of naturals is injective (at the character level). -/
theorem natStr_data_inj {m n : Nat} (h : (natStr m).data = (natStr n).data) : m = n := by
  unfold natStr at h
  split_ifs at h with hm hn hn
  · rw [hm, hn]
  · exact absurd (natChars_singleton (show natChars n = ['0'] from h.symm)) hn
  · exact absurd (natChars_singleton (show natChars m = ['0'] from h)) hm
  · exact natChars_inj (show natChars m = natChars n from h)

/-- Every character of a rendered natural number is a decimal digit. -/
theorem natStr_digit {n : Nat} {c : Char} (hc : c ∈ (natStr n).data) :
    ∃ d, d < 10 ∧ c = Char.ofNat (48 + d) := by
  unfold natStr at hc
  split_ifs at hc with hn
  · have hc' : c ∈ ['0'] := hc
    refine ⟨0, by norm_num, ?_⟩
    simpa using hc'
  · have hc' : c ∈ natChars n := hc
    unfold natChars at hc'
    rw [List.mem_reverse] at hc'
    obtain ⟨d, hd, rfl⟩ := List.mem_map.mp hc'
    exact ⟨d, Nat.digits_lt_base (by norm_num) hd, rfl⟩

/-- A rendered natural number never contains the minus sign. -/
theorem natStr_no_dash {n : Nat} {c : Char} (hc : c ∈ (natStr n).data) : c ≠ '-' := by
  obtain ⟨d, hd, rfl⟩ := natStr_digit hc
  exact (digitChar_ne d hd).1

/-- A rendered natural number never contains the slash. -/
theorem natStr_no_slash {n : Nat} {c : Char} (hc : c ∈ (natStr n).data) : c ≠ '/' := by
  obtain ⟨d, hd, rfl⟩ := natStr_digit hc
  exact (digitChar_ne d hd).2

/-- A rendered integer never contains the slash. -/
theorem intStr_no_slash {z : Int} {c : Char} (hc : c ∈ (intStr z).data) : c ≠ '/' := by
  unfold intStr at hc
  split_ifs at hc
  · simp only [String.data_append] at hc
    rcases List.mem_append.mp hc with h | h
    · have h' : c ∈ ['-'] := h
      have : c = '-' := by simpa using h'
      rw [this]
      decide
    · exact natStr_no_slash h
  · exact natStr_no_slash hc

/-- Decimal rendering of integers is injective (at the character level). -/
theorem intStr_data_inj {a b : Int} (h : (intStr a).data = (intStr b).data) : a = b := by
  unfold intStr at h
  split_ifs at h with ha hb hb
  · simp only [String.data_append] at h
    replace h := List.append_cancel_left h
    have := natStr_data_inj h
    omega
  · simp only [String.data_append] at h
    have hm : '-' ∈ (natStr b.natAbs).data := by
      rw [← h]
      exact List.mem_append_left _ (show '-' ∈ ['-'] from List.mem_singleton.mpr rfl)
    exact absurd rfl (natStr_no_dash hm)
  · simp only [String.data_append] at h
    have hm : '-' ∈ (natStr a.natAbs).data := by
      rw [h]
      exact List.mem_append_left _ (show '-' ∈ ['-'] from List.mem_singleton.mpr rfl)
    exact absurd rfl (natStr_no_dash hm)
  · have := natStr_data_inj h
    omega

/-- Equal strings have equal character lists, and conversely. -/
theorem stringDataInj {s t : String} (h : s.data = t.data) : s = t := by
  cases s
  cases t
  exact congrArg String.mk h

/-- Splitting at a unique separator: if the separator occurs in neither
left part, an equality of `a ++ sep :: b` decompositions forces the
parts to agree. -/
theorem append_sep_inj {α : Type} (sep : α) :
    ∀ (a c b d : List α), sep ∉ a → sep ∉ c →
      a ++ sep :: b = c ++ sep :: d → a = c ∧ b = d := by
  intro a
  induction a with
  | nil =>
    intro c b d _ hc h
    cases c with
    | nil => simpa using h
    | cons y c' =>
      simp only [List.nil_append, List.cons_append, List.cons.injEq] at h
      exfalso
      apply hc
      rw [h.1]
      exact List.mem_cons_self y c'
  | cons x a' ih =>
    intro c b d ha hc h
    cases c with
    | nil =>
      simp only [List.cons_append, List.nil_append, List.cons.injEq] at h
      exfalso
      apply ha
      rw [← h.1]
      exact List.mem_cons_self x a'
    | cons y c' =>
      simp only [List.cons_append, List.cons.injEq] at h
      obtain ⟨hxy, h2⟩ := h
      have hr := ih c' b d (fun hm => ha (List.mem_cons_of_mem _ hm))
        (fun hm => hc (List.mem_cons_of_mem _ hm)) h2
      exact ⟨by rw [hxy, hr.1], hr.2⟩

/-- The numerator/denominator rendering of a rational is injective (at
the character level): the slash separator occurs nowhere else. -/
theorem ratStr_data_inj {p q : ℚ} (h : (ratStr p).data = (ratStr q).data) : p = q := by
  unfold ratStr at h
  simp only [String.data_append, List.append_assoc] at h
  have h' : (intStr p.num).data ++ '/' :: (natStr p.den).data =
      (intStr q.num).data ++ '/' :: (natStr q.den).data := h
  have hsep := append_sep_inj '/' _ _ _ _
    (fun hm => intStr_no_slash hm rfl) (fun hm => intStr_no_slash hm rfl) h'
  exact Rat.ext (intStr_data_inj hsep.1) (natStr_data_inj hsep.2)

/-- C4: the pipe-delimited cache key distinguishes any two parameter
records that differ in exactly one field — including seed strings that
contain the delimiter, because every other segment is then equal and
cancels. -/
theorem claim_C4 (p q : Params) (h : DiffersInOneField p q) : keyOf p ≠ keyOf q := by
  intro hk
  unfold keyOf at hk
  have hd := congrArg String.data hk
  simp only [String.data_append, List.append_assoc] at hd
  rcases h with h | h | h | h | h | h | h | h | h | h | h
  · obtain ⟨hne, h1, h2, h3, h4, h5, h6, h7, h8, h9, h10⟩ := h
    rw [h1, h2, h3, h4, h5, h6, h7, h8, h9, h10] at hd
    replace hd := List.append_cancel_right hd
    exact hne (natStr_data_inj hd)
  · obtain ⟨h0, hne, h2, h3, h4, h5, h6, h7, h8, h9, h10⟩ := h
    rw [h0, h2, h3, h4, h5, h6, h7, h8, h9, h10] at hd
    iterate 2 replace hd := List.append_cancel_left hd
    replace hd := List.append_cancel_right hd
    exact hne (stringDataInj hd)
  · obtain ⟨h0, h1, hne, h3, h4, h5, h6, h7, h8, h9, h10⟩ := h
    rw [h0, h1, h3, h4, h5, h6, h7, h8, h9, h10] at hd
    iterate 4 replace hd := List.append_cancel_left hd
    replace hd := List.append_cancel_right hd
    exact hne (intStr_data_inj hd)
  · obtain ⟨h0, h1, h2, hne, h4, h5, h6, h7, h8, h9, h10⟩ := h
    rw [h0, h1, h2, h4, h5, h6, h7, h8, h9, h10] at hd
    iterate 6 replace hd := List.append_cancel_left hd
    replace hd := List.append_cancel_right hd
    exact hne (intStr_data_inj hd)
  · obtain ⟨h0, h1, h2, h3, hne, h5, h6, h7, h8, h9, h10⟩ := h
    rw [h0, h1, h2, h3, h5, h6, h7, h8, h9, h10] at hd
    iterate 8 replace hd := List.append_cancel_left hd
    replace hd := List.append_cancel_right hd
    exact hne (intStr_data_inj hd)
  · obtain ⟨h0, h1, h2, h3, h4, hne, h6, h7, h8, h9, h10⟩ := h
    rw [h0, h1, h2, h3, h4, h6, h7, h8, h9, h10] at hd
    iterate 10 replace hd := List.append_cancel_left hd
    replace hd := List.append_cancel_right hd
    exact hne (intStr_data_inj hd)
  · obtain ⟨h0, h1, h2, h3, h4, h5, hne, h7, h8, h9, h10⟩ := h
    rw [h0, h1, h2, h3, h4, h5, h7, h8, h9, h10] at hd
    iterate 12 replace hd := List.append_cancel_left hd
    replace hd := List.append_cancel_right hd
    exact hne (ratStr_data_inj hd)
  · obtain ⟨h0, h1, h2, h3, h4, h5, h6, hne, h8, h9, h10⟩ := h
    rw [h0, h1, h2, h3, h4, h5, h6, h8, h9, h10] at hd
    iterate 14 replace hd := List.append_cancel_left hd
    replace hd := List.append_cancel_right hd
    exact hne (ratStr_data_inj hd)
  · obtain ⟨h0, h1, h2, h3, h4, h5, h6, h7, hne, h9, h10⟩ := h
    rw [h0, h1, h2, h3, h4, h5, h6, h7, h9, h10] at hd
    iterate 16 replace hd := List.append_cancel_left hd
    replace hd := List.append_cancel_right hd
    exact hne (ratStr_data_inj hd)
  · obtain ⟨h0, h1, h2, h3, h4, h5, h6, h7, h8, hne, h10⟩ := h
    rw [h0, h1, h2, h3, h4, h5, h6, h7, h8, h10] at hd
    iterate 18 replace hd := List.append_cancel_left hd
    replace hd := List.append_cancel_right hd
    exact hne (ratStr_data_inj hd)
  · obtain ⟨h0, h1, h2, h3, h4, h5, h6, h7, h8, h9, hne⟩ := h
    rw [h0, h1, h2, h3, h4, h5, h6, h7, h8, h9] at hd
    iterate 20 replace hd := List.append_cancel_left hd
    exact hne (ratStr_data_inj hd)

/-- Witness for C4: `caveP` and `caveP3` differ exactly in the seed —
and the differing seed "1|2" itself contains the delimiter — yet their
keys differ. -/
theorem claim_C4_witness : DiffersInOneField caveP caveP3 ∧ keyOf caveP ≠ keyOf caveP3 := by
  have hDiff : DiffersInOneField caveP caveP3 :=
    Or.inr (Or.inl ⟨rfl, by decide, rfl, rfl, rfl, rfl, rfl, rfl, rfl, rfl, rfl⟩)
  exact ⟨hDiff, claim_C4 caveP caveP3 hDiff⟩

/-! Invariants of the chunk-streaming state machine. -/

/-- The paired load fold of `loadStartMany` tracks, in its first
component, the plain fold of the synchronous load prefix. -/
theorem loadStartFold_fst : ∀ (ks : List (Int × Int)) (st : StreamState)
    (acc : List (Int × Int)),
    (ks.foldl (fun acc k =>
      let r := loadStart acc.1 k
      (r.1, if r.2 then acc.2 ++ [k] else acc.2)) (st, acc)).1 =
    ks.foldl (fun s k => (loadStart s k).1) st := by
  intro ks
  induction ks with
  | nil => intro st acc; rfl
  | cons k ks ih =>
    intro st acc
    exact ih (loadStart st k).1 (if (loadStart st k).2 then acc ++ [k] else acc)

/-- The synchronous load prefix never changes the resident map. -/
theorem stepFold_loaded : ∀ (ks : List (Int × Int)) (st : StreamState),
    (ks.foldl (fun s k => (loadStart s k).1) st).loaded = st.loaded := by
  intro ks
  induction ks with
  | nil => intro st; rfl
  | cons k ks ih =>
    intro st
    have hstep : (loadStart st k).1.loaded = st.loaded := by
      unfold loadStart; split_ifs <;> rfl
    exact (ih (loadStart st k).1).trans hstep

/-- The synchronous load prefix never changes the disposal flag. -/
theorem stepFold_disposed : ∀ (ks : List (Int × Int)) (st : StreamState),
    (ks.foldl (fun s k => (loadStart s k).1) st).disposed = st.disposed := by
  intro ks
  induction ks with
  | nil => intro st; rfl
  | cons k ks ih =>
    intro st
    have hstep : (loadStart st k).1.disposed = st.disposed := by
      unfold loadStart; split_ifs <;> rfl
    exact (ih (loadStart st k).1).trans hstep

/-- The synchronous load prefix never changes the released list. -/
theorem stepFold_released : ∀ (ks : List (Int × Int)) (st : StreamState),
    (ks.foldl (fun s k => (loadStart s k).1) st).released = st.released := by
  intro ks
  induction ks with
  | nil => intro st; rfl
  | cons k ks ih =>
    intro st
    have hstep : (loadStart st k).1.released = st.released := by
      unfold loadStart; split_ifs <;> rfl
    exact (ih (loadStart st k).1).trans hstep

/-- The synchronous load prefix only ever adds inflight markers. -/
theorem stepFold_inflight_mono : ∀ (ks : List (Int × Int)) (st : StreamState)
    (k : Int × Int), k ∈ st.inflight →
    k ∈ (ks.foldl (fun s k => (loadStart s k).1) st).inflight := by
  intro ks
  induction ks with
  | nil => intro st k h; exact h
  | cons j ks ih =>
    intro st k h
    refine ih (loadStart st j).1 k ?_
    unfold loadStart
    split_ifs
    · exact h
    · exact List.mem_cons_of_mem _ h

/-- Right after its synchronous prefix runs, a key is loaded, inflight,
or the manager is disposed. -/
theorem loadStart_post (st : StreamState) (k : Int × Int) :
    k ∈ (loadStart st k).1.loaded ∨ k ∈ (loadStart st k).1.inflight ∨
      (loadStart st k).1.disposed = true := by
  unfold loadStart
  split_ifs with h
  · exact h
  · exact Or.inr (Or.inl (List.mem_cons_self k st.inflight))

/-- Being loaded, inflight, or disposed is preserved by the load fold. -/
theorem stepFold_keep (ks : List (Int × Int)) (st : StreamState) (k : Int × Int)
    (h : k ∈ st.loaded ∨ k ∈ st.inflight ∨ st.disposed = true) :
    k ∈ (ks.foldl (fun s k => (loadStart s k).1) st).loaded ∨
    k ∈ (ks.foldl (fun s k => (loadStart s k).1) st).inflight ∨
    (ks.foldl (fun s k => (loadStart s k).1) st).disposed = true := by
  rcases h with h | h | h
  · left; rw [stepFold_loaded]; exact h
  · right; left; exact stepFold_inflight_mono ks st k h
  · right; right; rw [stepFold_disposed]; exact h

/-- After the load fold visits a key, that key is loaded, inflight, or
the manager is disposed. -/
theorem stepFold_post : ∀ (ks : List (Int × Int)) (st : StreamState)
    (k : Int × Int), k ∈ ks →
    k ∈ (ks.foldl (fun s k => (loadStart s k).1) st).loaded ∨
    k ∈ (ks.foldl (fun s k => (loadStart s k).1) st).inflight ∨
    (ks.foldl (fun s k => (loadStart s k).1) st).disposed = true := by
  intro ks
  induction ks with
  | nil => intro st k h; simp at h
  | cons j ks ih =>
    intro st k h
    rcases List.mem_cons.mp h with rfl | h
    · exact stepFold_keep ks (loadStart st k).1 k (loadStart_post st k)
    · exact ih (loadStart st j).1 k h

/-- If every key of the list is already loaded, inflight, or the manager
is disposed, the load fold issues no request at all. -/
theorem loadStartFold_noreq : ∀ (ks : List (Int × Int)) (st : StreamState)
    (acc : List (Int × Int)),
    (∀ k ∈ ks, k ∈ st.loaded ∨ k ∈ st.inflight ∨ st.disposed = true) →
    (ks.foldl (fun acc k =>
      let r := loadStart acc.1 k
      (r.1, if r.2 then acc.2 ++ [k] else acc.2)) (st, acc)).2 = acc := by
  intro ks
  induction ks with
  | nil => intro st acc _; rfl
  | cons a ks ih =>
    intro st acc h
    have ha := h a (List.mem_cons_self a ks)
    have hstart : loadStart st a = (st, false) := by
      unfold loadStart
      rw [if_pos ha]
    have step : ((loadStart st a).1, if (loadStart st a).2 then acc ++ [a] else acc) =
        (st, acc) := by
      rw [hstart]
      rfl
    show (ks.foldl _
      ((loadStart st a).1, if (loadStart st a).2 then acc ++ [a] else acc)).2 = acc
    rw [step]
    exact ih st acc (fun k hk => h k (List.mem_cons_of_mem _ hk))

/-- Membership in `intRange` gives the expected bounds. -/
theorem mem_intRange_le (lo hi z : Int) (h : z ∈ intRange lo hi) :
    lo ≤ z ∧ z ≤ hi := by
  unfold intRange at h
  obtain ⟨j, hj, rfl⟩ := List.mem_map.mp h
  rw [List.mem_range] at hj
  omega

/-- Every coordinate of the view square is within `VIEW_RADIUS` of the
center in both axes. -/
theorem mem_squareCoords (cx cz : Int) (k : Int × Int) (h : k ∈ squareCoords cx cz) :
    |k.1 - cx| ≤ VIEW_RADIUS ∧ |k.2 - cz| ≤ VIEW_RADIUS := by
  unfold squareCoords at h
  rw [List.mem_flatMap] at h
  obtain ⟨dz, hdz, h2⟩ := h
  rw [List.mem_map] at h2
  obtain ⟨dx, hdx, rfl⟩ := h2
  have h1 := mem_intRange_le _ _ _ hdz
  have h2 := mem_intRange_le _ _ _ hdx
  constructor
  · show |cx + dx - cx| ≤ VIEW_RADIUS
    have e : cx + dx - cx = dx := by ring
    rw [e, abs_le]
    exact ⟨h2.1, h2.2⟩
  · show |cz + dz - cz| ≤ VIEW_RADIUS
    have e : cz + dz - cz = dz := by ring
    rw [e, abs_le]
    exact ⟨h1.1, h1.2⟩

/-- The resident map after an `ensureChunksAround` pass is the fold
state's resident map filtered by the keep condition. -/
theorem ensure_loaded (st : StreamState) (cx cz : Int) :
    (ensureChunksAround st cx cz).1.loaded =
    (loadStartMany st (squareCoords cx cz)).1.loaded.filter
      (fun g => ! evictCond cx cz g) := by
  unfold ensureChunksAround
  dsimp only

/-- An `ensureChunksAround` pass does not change the inflight set beyond
what the load fold did. -/
theorem ensure_inflight (st : StreamState) (cx cz : Int) :
    (ensureChunksAround st cx cz).1.inflight =
    (loadStartMany st (squareCoords cx cz)).1.inflight := by
  unfold ensureChunksAround
  dsimp only

/-- An `ensureChunksAround` pass does not change the disposal flag. -/
theorem ensure_disposed (st : StreamState) (cx cz : Int) :
    (ensureChunksAround st cx cz).1.disposed =
    (loadStartMany st (squareCoords cx cz)).1.disposed := by
  unfold ensureChunksAround
  dsimp only

/-- The released list after an `ensureChunksAround` pass gains exactly
the evicted chunks. -/
theorem ensure_released (st : StreamState) (cx cz : Int) :
    (ensureChunksAround st cx cz).1.released =
    (loadStartMany st (squareCoords cx cz)).1.released ++
      (loadStartMany st (squareCoords cx cz)).1.loaded.filter (evictCond cx cz) := by
  unfold ensureChunksAround
  dsimp only

/-- The requests issued by an `ensureChunksAround` pass are the ones
issued by its load fold. -/
theorem ensure_reqs (st : StreamState) (cx cz : Int) :
    (ensureChunksAround st cx cz).2 =
    (loadStartMany st (squareCoords cx cz)).2 := by
  unfold ensureChunksAround
  dsimp only

/-- C6: when the manager is not disposed, the failure completion of a
load records the fallback chunk resident — the coordinate ends up in the
resident map, never permanently missing. -/
theorem claim_C6 (st : StreamState) (k : Int × Int) (h : st.disposed = false) :
    k ∈ (completeFailure st k).loaded := by
  unfold completeFailure
  rw [if_neg (by simp [h])]
  exact List.mem_insert_self k st.loaded

/-- Witness for C6: on the empty non-disposed state, a failed load of
chunk (5,5) still leaves (5,5) resident. -/
theorem claim_C6_witness :
    st0.disposed = false ∧ (5, 5) ∈ (completeFailure st0 (5, 5)).loaded :=
  ⟨rfl, claim_C6 st0 (5, 5) rfl⟩

/-- C7: after an `ensureChunksAround` pass, a resident chunk at
Chebyshev distance exactly `VIEW_RADIUS + 1` from the center stays
resident, while a resident chunk at distance at least `VIEW_RADIUS + 2`
is removed from the resident map and its resources are released. -/
theorem claim_C7 (st : StreamState) (cx cz : Int) (g : Int × Int)
    (hg : g ∈ st.loaded) :
    (chebDist g (cx, cz) = VIEW_RADIUS + 1 →
      g ∈ (ensureChunksAround st cx cz).1.loaded) ∧
    (VIEW_RADIUS + 2 ≤ chebDist g (cx, cz) →
      g ∉ (ensureChunksAround st cx cz).1.loaded ∧
      g ∈ (ensureChunksAround st cx cz).1.released) := by
  have hload : (loadStartMany st (squareCoords cx cz)).1.loaded = st.loaded := by
    unfold loadStartMany
    rw [loadStartFold_fst, stepFold_loaded]
  constructor
  · intro h
    have h' : max |g.1 - cx| |g.2 - cz| = VIEW_RADIUS + 1 := h
    have hA : |g.1 - cx| ≤ VIEW_RADIUS + 1 := by rw [← h']; exact le_max_left _ _
    have hB : |g.2 - cz| ≤ VIEW_RADIUS + 1 := by rw [← h']; exact le_max_right _ _
    have hev : evictCond cx cz g = false := by
      simp only [evictCond, decide_eq_false_iff_not, not_or, not_lt]
      exact ⟨hA, hB⟩
    rw [ensure_loaded, List.mem_filter, hload]
    exact ⟨hg, by rw [hev]; rfl⟩
  · intro h
    have h' : VIEW_RADIUS + 2 ≤ max |g.1 - cx| |g.2 - cz| := h
    have hev : evictCond cx cz g = true := by
      simp only [evictCond, decide_eq_true_eq]
      rcases max_cases |g.1 - cx| |g.2 - cz| with ⟨he, _⟩ | ⟨he, _⟩
      · left; rw [he] at h'; linarith
      · right; rw [he] at h'; linarith
    constructor
    · rw [ensure_loaded]
      intro hmem
      have hb := (List.mem_filter.mp hmem).2
      rw [hev] at hb
      simp at hb
    · rw [ensure_released]
      refine List.mem_append_right _ ?_
      rw [List.mem_filter, hload]
      exact ⟨hg, hev⟩

/-- Witness for C7: with chunks (7,0) and (8,0) resident and center
(0,0) (view radius 6), the pass keeps (7,0) resident and evicts and
releases (8,0). -/
theorem claim_C7_witness :
    ((7, 0) ∈ stW.loaded ∧ chebDist (7, 0) (0, 0) = VIEW_RADIUS + 1 ∧
      (7, 0) ∈ (ensureChunksAround stW 0 0).1.loaded) ∧
    ((8, 0) ∈ stW.loaded ∧ VIEW_RADIUS + 2 ≤ chebDist (8, 0) (0, 0) ∧
      (8, 0) ∉ (ensureChunksAround stW 0 0).1.loaded ∧
      (8, 0) ∈ (ensureChunksAround stW 0 0).1.released) :=
  ⟨⟨by decide, by decide,
    (claim_C7 stW 0 0 (7, 0) (by decide)).1 (by decide)⟩,
   ⟨by decide, by decide,
    ((claim_C7 stW 0 0 (8, 0) (by decide)).2 (by decide)).1,
    ((claim_C7 stW 0 0 (8, 0) (by decide)).2 (by decide)).2⟩⟩

/-- C8: a coordinate already resident or inflight is never re-requested
— the synchronous prefix bails out without issuing a fetch — and a
second `ensureChunksAround` pass with the same center issues no request
at all. -/
theorem claim_C8 (st : StreamState) (k : Int × Int) (cx cz : Int)
    (h : k ∈ st.loaded ∨ k ∈ st.inflight) :
    loadStart st k = (st, false) ∧
    (ensureChunksAround (ensureChunksAround st cx cz).1 cx cz).2 = [] := by
  constructor
  · unfold loadStart
    rcases h with h | h
    · rw [if_pos (Or.inl h)]
    · rw [if_pos (Or.inr (Or.inl h))]
  · have hpost : ∀ j ∈ squareCoords cx cz,
        j ∈ (ensureChunksAround st cx cz).1.loaded ∨
        j ∈ (ensureChunksAround st cx cz).1.inflight ∨
        (ensureChunksAround st cx cz).1.disposed = true := by
      intro j hj
      have h0 := stepFold_post (squareCoords cx cz) st j hj
      rcases h0 with h0 | h0 | h0
      · left
        have hsq := mem_squareCoords cx cz j hj
        have hev : evictCond cx cz j = false := by
          simp only [evictCond, decide_eq_false_iff_not, not_or, not_lt]
          have hR : (0 : Int) ≤ VIEW_RADIUS := by decide
          exact ⟨by linarith [hsq.1], by linarith [hsq.2]⟩
        rw [ensure_loaded, List.mem_filter]
        constructor
        · unfold loadStartMany
          rw [loadStartFold_fst]
          exact h0
        · rw [hev]; rfl
      · right; left
        rw [ensure_inflight]
        unfold loadStartMany
        rw [loadStartFold_fst]
        exact h0
      · right; right
        rw [ensure_disposed]
        unfold loadStartMany
        rw [loadStartFold_fst]
        exact h0
    rw [ensure_reqs]
    unfold loadStartMany
    exact loadStartFold_noreq _ _ [] hpost

/-- Witness for C8: chunk (7,0) is resident in `stW`, its re-load is
refused, and a repeated pass around the origin issues nothing. -/
theorem claim_C8_witness :
    ((7, 0) ∈ stW.loaded ∨ (7, 0) ∈ stW.inflight) ∧
    loadStart stW (7, 0) = (stW, false) ∧
    (ensureChunksAround (ensureChunksAround stW 0 0).1 0 0).2 = [] :=
  ⟨Or.inl (by decide),
   (claim_C8 stW (7, 0) 0 0 (Or.inl (by decide))).1,
   (claim_C8 stW (7, 0) 0 0 (Or.inl (by decide))).2⟩

/-- C9: once disposed, the synchronous prefix of a load refuses to start
(state unchanged, no fetch), and both the success and the failure
completions leave the resident map untouched. -/
theorem claim_C9 (st : StreamState) (k : Int × Int) (h : st.disposed = true) :
    loadStart st k = (st, false) ∧
    (completeSuccess st k).loaded = st.loaded ∧
    (completeFailure st k).loaded = st.loaded := by
  refine ⟨?_, ?_, ?_⟩
  · unfold loadStart
    rw [if_pos (Or.inr (Or.inr h))]
  · unfold completeSuccess
    rw [if_pos h]
  · unfold completeFailure
    rw [if_pos h]

/-- Witness for C9: on a disposed state with (5,5) inflight, a new load
refuses to start and the late completions do not touch the resident
map. -/
theorem claim_C9_witness :
    stD.disposed = true ∧ loadStart stD (5, 5) = (stD, false) ∧
    (completeSuccess stD (5, 5)).loaded = stD.loaded ∧
    (completeFailure stD (5, 5)).loaded = stD.loaded :=
  ⟨rfl, (claim_C9 stD (5, 5) rfl).1, (claim_C9 stD (5, 5) rfl).2.1,
   (claim_C9 stD (5, 5) rfl).2.2⟩
